import Mathlib

/-!
Verification development for the streaming-dataflow operator engine
(`utils.py` / `builtins.py`, chat-code translation, and the `py-files`
translation where the two differ).

Data model: `OpResult` is the tagged result value, a `Tuple` is a Python
dict from field name to `OpResult`, embedded as an associative list in
insertion order (Python dicts preserve insertion order; keys are unique
by construction).  Machine floats are embedded as rationals, machine
integers as unbounded integers, matching the arithmetic the algorithms
perform.  Operators are embedded as state-transition functions returning
the new state together with the list of downstream calls they make
(`Ev.next t` for a downstream `next`/`accept`, `Ev.reset t` for a
downstream `reset`/`flush`).
-/

namespace StreamEngine

/-- The tagged union `op_result`: Float, Int, IPv4, MAC or Empty
(`utils.py`, `OpResult`).  Python `None` plays the role of Empty. -/
inductive OpResult where
  | Float (q : ℚ)
  | Int (n : ℤ)
  | IPv4 (a : ℕ)
  | MAC (b : List ℕ)
  | Empty
deriving DecidableEq

/-- A tuple: Python dict from field name to `OpResult`, in insertion order. -/
abbrev Tuple := List (String × OpResult)

/-- Python `tup[k]` lookup returning `none` when the key is absent
(also models `tup.get(k, None)`). -/
def dictGet : Tuple → String → Option OpResult
  | [], _ => none
  | p :: rest, k => if p.1 = k then some p.2 else dictGet rest k

/-- Python `tup[k] = v`: replace the value in place if the key is
present (keeping its position), otherwise append the binding. -/
def dictSet : Tuple → String → OpResult → Tuple
  | [], k, v => [(k, v)]
  | p :: rest, k, v => if p.1 = k then (k, v) :: rest else p :: dictSet rest k v

/-- The keys of a tuple are pairwise distinct (every Python dict satisfies this). -/
def keysNodup (t : Tuple) : Prop := (t.map Prod.fst).Nodup

instance (t : Tuple) : Decidable (keysNodup t) :=
  inferInstanceAs (Decidable ((t.map Prod.fst).Nodup))

/-- Ordering of bindings by field name, used to canonicalize a key tuple. -/
def keyLe (p q : String × OpResult) : Prop := p.1 ≤ q.1

instance : DecidableRel keyLe := fun p q => inferInstanceAs (Decidable (p.1 ≤ q.1))

instance : IsTotal (String × OpResult) keyLe := ⟨fun p q => le_total p.1 q.1⟩

instance : IsTrans (String × OpResult) keyLe :=
  ⟨fun _ _ _ h1 h2 => le_trans h1 h2⟩

/-- Strict variant of `keyLe`, used to compare canonical forms. -/
def keyLt (p q : String × OpResult) : Prop := p.1 < q.1

instance : IsAntisymm (String × OpResult) keyLt :=
  ⟨fun _ _ h1 h2 => absurd (lt_trans h1 h2) (lt_irrefl _)⟩

/-- `make_hashable` (`utils.py`): the canonical, order-independent
hashable form of a tuple.  The source uses `frozenset(d.items())`, whose
equality is equality of the set of bindings; for dicts (unique keys)
this coincides with equality of the bindings sorted by field name, which
is the executable canonical form used here. -/
def make_hashable (t : Tuple) : Tuple := t.insertionSort keyLe

/-- Python `base.update(upd)`: write every binding of `upd` into `base`,
in order. -/
def dictUpdate (base upd : Tuple) : Tuple :=
  upd.foldl (fun acc p => dictSet acc p.1 p.2) base

/-- `merge_tuples(*tuples, precedence='first')` (`utils.py`): start from
the empty dict and `update` with the argument tuples in reversed order,
so that for every key the earliest argument containing it wins. -/
def merge_tuples (ts : List Tuple) : Tuple :=
  ts.reverse.foldl dictUpdate []

/-- Lookup in an operator hash table keyed by (canonical) tuples. -/
def assocGet {α : Type} : List (Tuple × α) → Tuple → Option α
  | [], _ => none
  | p :: rest, k => if p.1 = k then some p.2 else assocGet rest k

/-- Store into an operator hash table: replace in place if present,
otherwise append. -/
def assocSet {α : Type} : List (Tuple × α) → Tuple → α → List (Tuple × α)
  | [], k, v => [(k, v)]
  | p :: rest, k, v => if p.1 = k then (k, v) :: rest else p :: assocSet rest k v

/-- Python `table.pop(k)`'s effect on the table: remove the entry for `k`. -/
def assocRemove {α : Type} : List (Tuple × α) → Tuple → List (Tuple × α)
  | [], _ => []
  | p :: rest, k => if p.1 = k then rest else p :: assocRemove rest k

/-- The keys of an operator hash table. -/
def tblKeys {α : Type} (tbl : List (Tuple × α)) : List Tuple := tbl.map Prod.fst

/-- A downstream call made by an operator: `next` (accept) or `reset` (flush). -/
inductive Ev where
  | next (t : Tuple)
  | reset (t : Tuple)
deriving DecidableEq

/-- `lookup_int(key, tup)` (`utils.py`) with both of its failure modes
(missing key, non-Int value) mapped to `none`; callers that catch
`(KeyError, TypeError)` observe exactly this. -/
def lookupIntOpt (k : String) (t : Tuple) : Option ℤ :=
  match dictGet t k with
  | some (OpResult.Int n) => some n
  | _ => none

/-- `counter()` (`builtins.py`): Empty (Python `None`) becomes 1, an Int
is incremented, anything else is returned unchanged. -/
def counter : OpResult → Tuple → OpResult
  | OpResult.Empty, _ => OpResult.Int 1
  | OpResult.Int n, _ => OpResult.Int (n + 1)
  | v, _ => v

/-- `sum_ints(search_key)` (`builtins.py`, chat-code): look the field up
with `lookup_int`; on `KeyError`/`TypeError` the exception is caught and
the current sum is returned unchanged.  On success: Empty starts the sum
at the looked-up value, an Int accumulator is increased by it, any other
accumulator is returned unchanged. -/
def sum_ints (searchKey : String) (currentSum : OpResult) (tup : Tuple) : OpResult :=
  match lookupIntOpt searchKey tup with
  | none => currentSum
  | some v =>
    match currentSum with
    | OpResult.Empty => OpResult.Int v
    | OpResult.Int n => OpResult.Int (n + v)
    | other => other

/-- Modelled from the spec: the spec's description of `sum_ints`
(§4.4, §7), which *fails* with an aggregation error when the field is
absent or not an integer; used only to compare with the source's
`sum_ints` above. -/
def sumIntsSpec (searchKey : String) (currentSum : OpResult) (tup : Tuple) :
    Except String OpResult :=
  match lookupIntOpt searchKey tup with
  | none => Except.error "AggregationFailure"
  | some v =>
    match currentSum with
    | OpResult.Empty => Except.ok (OpResult.Int (0 + v))
    | OpResult.Int n => Except.ok (OpResult.Int (n + v))
    | _ => Except.error "AggregationFailure"

/-- `FilterOperator.next` (`builtins.py`, chat-code): the predicate may
raise (modelled by `Except`); the exception is caught and logged, so the
tuple is dropped and no error reaches the caller.  A true predicate
forwards the tuple, a false one drops it. -/
def filterNext (pred : Tuple → Except String Bool) (tup : Tuple) : List Ev :=
  match pred tup with
  | Except.ok true => [Ev.next tup]
  | Except.ok false => []
  | Except.error _ => []

/-- `Query.filter` `next` (`py-files/builtins_translated.py`): no
exception handling, so a predicate error propagates to the caller. -/
def filterNextTranslated (pred : Tuple → Except String Bool) (tup : Tuple) :
    Except String (List Ev) :=
  match pred tup with
  | Except.ok true => Except.ok [Ev.next tup]
  | Except.ok false => Except.ok []
  | Except.error e => Except.error e

/-- `GroupByOperator.next` (`builtins.py`): canonicalize the grouping
key, fetch the current accumulator (`None`, i.e. Empty, when absent),
reduce, store. -/
def groupbyNext (gf : Tuple → Tuple) (rf : OpResult → Tuple → OpResult)
    (tbl : List (Tuple × OpResult)) (tup : Tuple) : List (Tuple × OpResult) :=
  let ck := make_hashable (gf tup)
  let cur := (assocGet tbl ck).getD OpResult.Empty
  assocSet tbl ck (rf cur tup)

/-- The tuple `GroupByOperator.reset` emits for one group: the reset
(context) tuple merged over the grouping key with first-wins precedence,
then the accumulated value written under `out_key`. -/
def groupEmit (outKey : String) (ctx K : Tuple) (v : OpResult) : Tuple :=
  dictSet (merge_tuples [ctx, K]) outKey v

/-- `GroupByOperator.reset` (`builtins.py`): emit one tuple per group,
then forward the reset downstream, then clear the table. -/
def groupbyReset (outKey : String) (tbl : List (Tuple × OpResult)) (ctx : Tuple) :
    List (Tuple × OpResult) × List Ev :=
  ([], (tbl.map (fun p => Ev.next (groupEmit outKey ctx p.1 p.2))) ++ [Ev.reset ctx])

/-- Python `set.add`: insert a canonical key if it is not yet present. -/
def setInsert (s : List Tuple) (k : Tuple) : List Tuple :=
  if k ∈ s then s else s ++ [k]

/-- `DistinctOperator.next` (`builtins.py`): add the canonical grouping
key to the set. -/
def distinctNext (gf : Tuple → Tuple) (st : List Tuple) (tup : Tuple) : List Tuple :=
  setInsert st (make_hashable (gf tup))

/-- The tuple `DistinctOperator.reset` emits for one distinct key:
reset-context tuple merged over the key, first-wins. -/
def distinctEmit (ctx K : Tuple) : Tuple := merge_tuples [ctx, K]

/-- `DistinctOperator.reset` (`builtins.py`): emit one tuple per
distinct key, forward the reset downstream, clear the set. -/
def distinctReset (st : List Tuple) (ctx : Tuple) : List Tuple × List Ev :=
  ([], (st.map (fun k => Ev.next (distinctEmit ctx k))) ++ [Ev.reset ctx])

/-- State of `EpochOperator` (`builtins.py`): the epoch boundary
(`0.0` meaning uninitialized) and the current epoch id. -/
structure EpochState where
  boundary : ℚ
  eid : ℤ
deriving DecidableEq

/-- Initial `EpochOperator` state. -/
def epochInit : EpochState := ⟨0, 0⟩

/-- The `while time >= boundary` loop of `EpochOperator.next`: each
iteration forwards `reset({key_out: eid})` downstream, advances the
boundary by the width and increments the epoch id.  The constructor
rejects non-positive widths, so `0 < w` is carried as a hypothesis. -/
def epochLoop (w : ℚ) (hw : 0 < w) (keyOut : String) (boundary : ℚ) (eid : ℤ)
    (time : ℚ) : ℚ × ℤ × List Ev :=
  if h : boundary ≤ time then
    let r := epochLoop w hw keyOut (boundary + w) (eid + 1) time
    (r.1, r.2.1, Ev.reset [(keyOut, OpResult.Int eid)] :: r.2.2)
  else
    (boundary, eid, [])
termination_by (⌈(time - boundary) / w⌉ + 1).toNat
decreasing_by
  have hw' : w ≠ 0 := ne_of_gt hw
  have hdiv : (time - (boundary + w)) / w = (time - boundary) / w - 1 := by
    field_simp
    ring
  have hcast : ((1 : ℤ) : ℚ) = 1 := by norm_num
  have hceil : ⌈(time - (boundary + w)) / w⌉ = ⌈(time - boundary) / w⌉ - 1 := by
    rw [hdiv, ← hcast, Int.ceil_sub_int]
  have hnn : (0 : ℚ) ≤ (time - boundary) / w :=
    div_nonneg (sub_nonneg.mpr h) (le_of_lt hw)
  have hc : 0 ≤ ⌈(time - boundary) / w⌉ := Int.ceil_nonneg hnn
  rw [hceil]
  omega

/-- The `time` field of a tuple read as a float (`float_of_op_result`),
with failure mapped to `none`. -/
def timeOf (t : Tuple) : Option ℚ :=
  match dictGet t "time" with
  | some (OpResult.Float q) => some q
  | _ => none

/-- `EpochOperator.next` (`builtins.py`): a missing or non-float `time`
field skips the tuple; otherwise an uninitialized boundary (`== 0.0`)
is set to `time + width`, the boundary loop runs, and the tuple is
forwarded with the epoch id written under `key_out`. -/
def epochNext (w : ℚ) (hw : 0 < w) (keyOut : String) (s : EpochState) (tup : Tuple) :
    EpochState × List Ev :=
  match timeOf tup with
  | none => (s, [])
  | some time =>
    let b0 := if s.boundary = 0 then time + w else s.boundary
    let r := epochLoop w hw keyOut b0 s.eid time
    (⟨r.1, r.2.1⟩, r.2.2 ++ [Ev.next (dictSet tup keyOut (OpResult.Int r.2.1))])

/-- Feed a stream of tuples into `EpochOperator.next`, collecting all
downstream calls in order. -/
def runEpoch (w : ℚ) (hw : 0 < w) (keyOut : String) (s : EpochState) :
    List Tuple → EpochState × List Ev
  | [] => (s, [])
  | t :: rest =>
    let r := epochNext w hw keyOut s t
    let r2 := runEpoch w hw keyOut r.1 rest
    (r2.1, r.2 ++ r2.2)

/-- The values attached under `keyOut` to the tuples forwarded via
downstream `next` calls, in order. -/
def nextKeyVals (keyOut : String) (evs : List Ev) : List (Option OpResult) :=
  evs.filterMap (fun e =>
    match e with
    | Ev.next t => some (dictGet t keyOut)
    | Ev.reset _ => none)

/-- One of the two input streams of a join. -/
inductive Side where
  | L
  | R
deriving DecidableEq

/-- Shared state of the two `_JoinSideOperator`s created by one
`join(...)` call: the two pending-value tables and the two epoch
counters. -/
structure JoinState where
  tblL : List (Tuple × Tuple)
  tblR : List (Tuple × Tuple)
  epL : ℤ
  epR : ℤ
deriving DecidableEq

/-- Initial join state: empty tables, both epoch counters 0. -/
def initJoin : JoinState := ⟨[], [], 0, 0⟩

/-- A downstream call made by the join, with a matched emission kept in
its pre-merge form: `matchEmit joinKey vals otherVals` stands for the
downstream `next(merge_tuples(joinKey, vals, otherVals))` call the
source makes (see `downstreamOfJEv`). -/
inductive JEv where
  | reset (t : Tuple)
  | matchEmit (joinKey vals otherVals : Tuple)
deriving DecidableEq

/-- The actual downstream call of a join event. -/
def downstreamOfJEv : JEv → Ev
  | JEv.reset t => Ev.reset t
  | JEv.matchEmit jk v ov => Ev.next (merge_tuples [jk, v, ov])

/-- The epoch-advancement loop shared by `_JoinSideOperator.next` and
`.reset`: `while target > curr`, forward `reset({eid_key: curr})` iff
the other side's counter has passed `curr`, then increment `curr`.  The
loop runs exactly `(target - curr).toNat` times. -/
def advanceLoop (eidKey : String) (otherE : ℤ) : ℕ → ℤ → ℤ × List JEv
  | 0, curr => (curr, [])
  | n + 1, curr =>
    let head : List JEv :=
      if otherE > curr then [JEv.reset [(eidKey, OpResult.Int curr)]] else []
    let r := advanceLoop eidKey otherE n (curr + 1)
    (r.1, head ++ r.2)

/-- Epoch advancement from `curr` towards `target` (no-op when
`target ≤ curr`, as for the source's `while` loop). -/
def advanceEpochs (eidKey : String) (otherE curr target : ℤ) : ℤ × List JEv :=
  advanceLoop eidKey otherE (target - curr).toNat curr

/-- `_JoinSideOperator.next` (`builtins.py`): look up the epoch (any
`KeyError`/`TypeError` is caught, aborting the call with no state
change); run the epoch-advancement loop; build the full key
(extracted key plus epoch) and canonicalize it; on a hit in the *other*
side's table pop that entry and emit the merged tuple, otherwise store
the extracted value in this side's own table.  Returns
(own table, other table, own counter, events). -/
def joinSideNext (eidKey : String) (extr : Tuple → Tuple × Tuple)
    (own other : List (Tuple × Tuple)) (curr otherE : ℤ) (tup : Tuple) :
    List (Tuple × Tuple) × List (Tuple × Tuple) × ℤ × List JEv :=
  match lookupIntOpt eidKey tup with
  | none => (own, other, curr, [])
  | some ep =>
    let kv := extr tup
    let adv := advanceEpochs eidKey otherE curr ep
    let joinKey := dictSet kv.1 eidKey (OpResult.Int ep)
    let ck := make_hashable joinKey
    match assocGet other ck with
    | some otherVals =>
      (own, assocRemove other ck, adv.1,
        adv.2 ++ [JEv.matchEmit joinKey kv.2 otherVals])
    | none => (assocSet own ck kv.2, other, adv.1, adv.2)

/-- `_JoinSideOperator.reset` (`builtins.py`): read the epoch (failures
caught, no state change) and run the same epoch-advancement loop; the
tables are not touched. -/
def joinSideReset (eidKey : String) (otherE curr : ℤ) (tup : Tuple) : ℤ × List JEv :=
  match lookupIntOpt eidKey tup with
  | none => (curr, [])
  | some ep => advanceEpochs eidKey otherE curr ep

/-- Configuration of one `join(...)` call: the epoch field name and the
two key extractors. -/
structure JoinCfg where
  eidKey : String
  extrL : Tuple → Tuple × Tuple
  extrR : Tuple → Tuple × Tuple

/-- The extractor of a given side. -/
def JoinCfg.extr (cfg : JoinCfg) : Side → Tuple → Tuple × Tuple
  | Side.L => cfg.extrL
  | Side.R => cfg.extrR

/-- One call into one of the two join handles, as driven by the
external loop: `next` or `reset` on the left or right side. -/
inductive JIn where
  | next (s : Side) (t : Tuple)
  | reset (s : Side) (t : Tuple)
deriving DecidableEq

/-- The side an input is driven into. -/
def JIn.side : JIn → Side
  | JIn.next s _ => s
  | JIn.reset s _ => s

/-- The tuple carried by an input. -/
def JIn.tup : JIn → Tuple
  | JIn.next _ t => t
  | JIn.reset _ t => t

/-- Process one input through the corresponding `_JoinSideOperator`. -/
def joinStep (cfg : JoinCfg) (s : JoinState) : JIn → JoinState × List JEv
  | JIn.next Side.L t =>
    let r := joinSideNext cfg.eidKey cfg.extrL s.tblL s.tblR s.epL s.epR t
    (⟨r.1, r.2.1, r.2.2.1, s.epR⟩, r.2.2.2)
  | JIn.next Side.R t =>
    let r := joinSideNext cfg.eidKey cfg.extrR s.tblR s.tblL s.epR s.epL t
    (⟨r.2.1, r.1, s.epL, r.2.2.1⟩, r.2.2.2)
  | JIn.reset Side.L t =>
    let r := joinSideReset cfg.eidKey s.epR s.epL t
    (⟨s.tblL, s.tblR, r.1, s.epR⟩, r.2)
  | JIn.reset Side.R t =>
    let r := joinSideReset cfg.eidKey s.epL s.epR t
    (⟨s.tblL, s.tblR, s.epL, r.1⟩, r.2)

/-- Drive a whole interleaving of calls into the two join handles,
collecting all downstream events in order. -/
def runJoin (cfg : JoinCfg) (s : JoinState) : List JIn → JoinState × List JEv
  | [] => (s, [])
  | i :: rest =>
    let r := joinStep cfg s i
    let r2 := runJoin cfg r.1 rest
    (r2.1, r.2 ++ r2.2)

/-- The canonical full key (extracted key plus epoch) an input computes,
when its epoch field is readable; `none` otherwise. -/
def inputFullKey (cfg : JoinCfg) : JIn → Option Tuple
  | JIn.next sd t =>
    match lookupIntOpt cfg.eidKey t with
    | none => none
    | some ep => some (make_hashable (dictSet (cfg.extr sd t).1 cfg.eidKey (OpResult.Int ep)))
  | JIn.reset _ _ => none

/-- The epoch an input carries under the join's epoch field, if readable. -/
def inputEpoch (cfg : JoinCfg) (i : JIn) : Option ℤ :=
  lookupIntOpt cfg.eidKey i.tup

/-- Number of matched emissions in an event list whose canonical full
key is `K`. -/
def emitCount (evs : List JEv) (K : Tuple) : ℕ :=
  evs.countP (fun e =>
    match e with
    | JEv.matchEmit jk _ _ => decide (make_hashable jk = K)
    | JEv.reset _ => false)

/-- Number of `next` inputs on side `sd` whose computed canonical full
key is `K`. -/
def acceptCount (cfg : JoinCfg) (sd : Side) (inputs : List JIn) (K : Tuple) : ℕ :=
  inputs.countP (fun i =>
    match i with
    | JIn.next sd' _ => decide (sd' = sd) && decide (inputFullKey cfg i = some K)
    | JIn.reset _ _ => false)

/-- Whether a downstream call is a `next` (as opposed to a `reset`). -/
def Ev.isNext : Ev → Bool
  | Ev.next _ => true
  | Ev.reset _ => false

/-- The opposite side. -/
def Side.other : Side → Side
  | Side.L => Side.R
  | Side.R => Side.L

/-- A side's own pending table. -/
def ownTbl (s : JoinState) : Side → List (Tuple × Tuple)
  | Side.L => s.tblL
  | Side.R => s.tblR

/-- The opposite side's pending table. -/
def otherTbl (s : JoinState) : Side → List (Tuple × Tuple)
  | Side.L => s.tblR
  | Side.R => s.tblL

/-- A side's own epoch counter. -/
def ownEp (s : JoinState) : Side → ℤ
  | Side.L => s.epL
  | Side.R => s.epR

/-- The opposite side's epoch counter. -/
def otherEp (s : JoinState) : Side → ℤ
  | Side.L => s.epR
  | Side.R => s.epL

/-- 1 when the table has an entry for `K`, else 0. -/
def tblHasNat (tbl : List (Tuple × Tuple)) (K : Tuple) : ℕ :=
  if (assocGet tbl K).isSome then 1 else 0

/-- The value tuple `v` is stored somewhere in one of the two pending tables. -/
def valInTables (s : JoinState) (v : Tuple) : Prop :=
  (∃ p ∈ s.tblL, p.2 = v) ∨ (∃ p ∈ s.tblR, p.2 = v)

/-- Side `sd` has processed an input (record or explicit flush) carrying
an epoch strictly greater than `E`. -/
def sideSaw (cfg : JoinCfg) (inputs : List JIn) (sd : Side) (E : ℤ) : Prop :=
  ∃ i ∈ inputs, i.side = sd ∧ ∃ ep, inputEpoch cfg i = some ep ∧ E < ep

/-- Invariant tying the two epoch counters to the inputs processed so
far: both counters are nonnegative, and a counter exceeds `E ≥ 0` only
if that side has processed an input with epoch `> E`. -/
def epochInv (cfg : JoinCfg) (inputs : List JIn) (s : JoinState) : Prop :=
  0 ≤ s.epL ∧ 0 ≤ s.epR ∧
  (∀ E : ℤ, 0 ≤ E → E < s.epL → sideSaw cfg inputs Side.L E) ∧
  (∀ E : ℤ, 0 ≤ E → E < s.epR → sideSaw cfg inputs Side.R E)

/-!  ### Dictionary and hash-table lemmas -/

theorem dictGet_dictSet_self (t : Tuple) (k : String) (v : OpResult) :
    dictGet (dictSet t k v) k = some v := by
  induction t with
  | nil => simp [dictSet, dictGet]
  | cons p rest ih =>
    by_cases h : p.1 = k
    · simp [dictSet, h, dictGet]
    · simp [dictSet, h, dictGet, ih]

theorem dictGet_dictSet_ne (t : Tuple) (k k' : String) (v : OpResult) (h : k' ≠ k) :
    dictGet (dictSet t k v) k' = dictGet t k' := by
  have hne : ¬(k = k') := fun hh => h hh.symm
  induction t with
  | nil => simp [dictSet, dictGet, hne]
  | cons p rest ih =>
    by_cases hp : p.1 = k
    · subst hp
      have hp' : ¬(p.1 = k') := hne
      simp only [dictSet, if_pos rfl, dictGet, if_neg hp']
    · by_cases hp' : p.1 = k'
      · simp only [dictSet, if_neg hp, dictGet, if_pos hp']
      · simp only [dictSet, if_neg hp, dictGet, if_neg hp', ih]

theorem dictGet_eq_none_of_not_mem (t : Tuple) (k : String)
    (h : k ∉ t.map Prod.fst) : dictGet t k = none := by
  induction t with
  | nil => simp [dictGet]
  | cons p rest ih =>
    simp only [List.map_cons, List.mem_cons] at h
    push_neg at h
    have hne : ¬(p.1 = k) := fun hh => h.1 hh.symm
    simp only [dictGet, if_neg hne, ih h.2]

theorem dictGet_dictUpdate (base upd : Tuple) (k : String) (h : keysNodup upd) :
    dictGet (dictUpdate base upd) k = (dictGet upd k).or (dictGet base k) := by
  induction upd generalizing base with
  | nil => simp [dictUpdate, dictGet]
  | cons p rest ih =>
    have hrest : keysNodup rest := (List.nodup_cons.mp h).2
    have hnot : p.1 ∉ rest.map Prod.fst := (List.nodup_cons.mp h).1
    have hfold : dictUpdate base (p :: rest) = dictUpdate (dictSet base p.1 p.2) rest := by
      simp [dictUpdate]
    rw [hfold, ih _ hrest]
    by_cases hk : p.1 = k
    · subst hk
      rw [dictGet_eq_none_of_not_mem rest p.1 hnot, dictGet_dictSet_self]
      simp [dictGet]
    · rw [dictGet_dictSet_ne _ _ _ _ (fun hh => hk hh.symm)]
      simp [dictGet, fun hh : p.1 = k => hk hh]

theorem dictGet_foldl_dictUpdate (rs : List Tuple) (acc : Tuple) (k : String)
    (h : ∀ t ∈ rs, keysNodup t) :
    dictGet (rs.foldl dictUpdate acc) k =
      (rs.reverse.findSome? (fun t => dictGet t k)).or (dictGet acc k) := by
  induction rs generalizing acc with
  | nil => simp
  | cons t rest ih =>
    have ht : keysNodup t := h t (by simp)
    have hrest : ∀ u ∈ rest, keysNodup u := fun u hu => h u (by simp [hu])
    simp only [List.foldl_cons, List.reverse_cons]
    rw [ih _ hrest, List.findSome?_append, dictGet_dictUpdate _ _ _ ht]
    cases hr : rest.reverse.findSome? (fun t => dictGet t k) <;>
      cases hg : dictGet t k <;> simp [List.findSome?, hg, Option.or]

theorem dictGet_merge_tuples (ts : List Tuple) (k : String)
    (h : ∀ t ∈ ts, keysNodup t) :
    dictGet (merge_tuples ts) k = ts.findSome? (fun t => dictGet t k) := by
  unfold merge_tuples
  rw [dictGet_foldl_dictUpdate _ _ _ (by simpa using h)]
  simp [dictGet]

theorem assocGet_assocSet_self {α : Type} (l : List (Tuple × α)) (k : Tuple) (v : α) :
    assocGet (assocSet l k v) k = some v := by
  induction l with
  | nil => simp [assocSet, assocGet]
  | cons p rest ih =>
    by_cases h : p.1 = k
    · simp [assocSet, h, assocGet]
    · simp [assocSet, h, assocGet, ih]

theorem assocGet_assocSet_ne {α : Type} (l : List (Tuple × α)) (k k' : Tuple) (v : α)
    (h : k' ≠ k) : assocGet (assocSet l k v) k' = assocGet l k' := by
  have hne : ¬(k = k') := fun hh => h hh.symm
  induction l with
  | nil => simp [assocSet, assocGet, hne]
  | cons p rest ih =>
    by_cases hp : p.1 = k
    · subst hp
      have hp' : ¬(p.1 = k') := hne
      simp only [assocSet, if_pos rfl, assocGet, if_neg hp']
    · by_cases hp' : p.1 = k'
      · simp only [assocSet, if_neg hp, assocGet, if_pos hp']
      · simp only [assocSet, if_neg hp, assocGet, if_neg hp', ih]

theorem assocRemove_sublist {α : Type} (l : List (Tuple × α)) (k : Tuple) :
    (assocRemove l k).Sublist l := by
  induction l with
  | nil => simp [assocRemove]
  | cons p rest ih =>
    by_cases h : p.1 = k
    · simp only [assocRemove, if_pos h]
      exact (List.sublist_cons_self p rest)
    · simp only [assocRemove, if_neg h]
      exact ih.cons₂ p

theorem assocGet_mem {α : Type} (l : List (Tuple × α)) (k : Tuple) (v : α)
    (h : assocGet l k = some v) : (k, v) ∈ l := by
  induction l with
  | nil => simp [assocGet] at h
  | cons p rest ih =>
    by_cases hp : p.1 = k
    · simp only [assocGet, if_pos hp] at h
      have : p = (k, v) := by
        cases p
        simp_all
      simp [this]
    · simp only [assocGet, if_neg hp] at h
      exact List.mem_cons_of_mem _ (ih h)

theorem mem_assocSet {α : Type} (l : List (Tuple × α)) (k : Tuple) (v : α)
    (p : Tuple × α) (hmem : p ∈ assocSet l k v) : p = (k, v) ∨ p ∈ l := by
  induction l with
  | nil => simp [assocSet] at hmem; simp [hmem]
  | cons q rest ih =>
    by_cases hq : q.1 = k
    · simp only [assocSet, if_pos hq, List.mem_cons] at hmem
      rcases hmem with h | h
      · exact Or.inl h
      · exact Or.inr (List.mem_cons_of_mem _ h)
    · simp only [assocSet, if_neg hq, List.mem_cons] at hmem
      rcases hmem with h | h
      · exact Or.inr (by simp [h])
      · rcases ih h with h' | h'
        · exact Or.inl h'
        · exact Or.inr (List.mem_cons_of_mem _ h')

theorem mem_assocSet_nodup {α : Type} (l : List (Tuple × α)) (k : Tuple) (v : α)
    (p : Tuple × α) (hn : (tblKeys l).Nodup) (hmem : p ∈ assocSet l k v) :
    p = (k, v) ∨ (p ∈ l ∧ p.1 ≠ k) := by
  induction l with
  | nil => simp [assocSet] at hmem; simp [hmem]
  | cons q rest ih =>
    have hq1 : q.1 ∉ rest.map Prod.fst := (List.nodup_cons.mp hn).1
    have hqrest : (tblKeys rest).Nodup := (List.nodup_cons.mp hn).2
    by_cases hq : q.1 = k
    · simp only [assocSet, if_pos hq, List.mem_cons] at hmem
      rcases hmem with h | h
      · exact Or.inl h
      · refine Or.inr ⟨List.mem_cons_of_mem _ h, ?_⟩
        intro hpk
        exact hq1 (by rw [hq, ← hpk]; exact List.mem_map_of_mem Prod.fst h)
    · simp only [assocSet, if_neg hq, List.mem_cons] at hmem
      rcases hmem with h | h
      · exact Or.inr ⟨by simp [h], by rw [h]; exact hq⟩
      · rcases ih hqrest h with h' | h'
        · exact Or.inl h'
        · exact Or.inr ⟨List.mem_cons_of_mem _ h'.1, h'.2⟩

theorem mem_assocRemove {α : Type} (l : List (Tuple × α)) (k : Tuple)
    (p : Tuple × α) (hmem : p ∈ assocRemove l k) : p ∈ l :=
  (assocRemove_sublist l k).mem hmem

theorem tblKeys_nodup_assocSet {α : Type} (l : List (Tuple × α)) (k : Tuple) (v : α)
    (hn : (tblKeys l).Nodup) : (tblKeys (assocSet l k v)).Nodup := by
  induction l with
  | nil => simp [assocSet, tblKeys]
  | cons q rest ih =>
    have hq1 : q.1 ∉ rest.map Prod.fst := (List.nodup_cons.mp hn).1
    have hqrest : (tblKeys rest).Nodup := (List.nodup_cons.mp hn).2
    by_cases hq : q.1 = k
    · subst hq
      simpa [assocSet, tblKeys] using hn
    · simp only [assocSet, if_neg hq, tblKeys, List.map_cons, List.nodup_cons]
      refine ⟨?_, ih hqrest⟩
      intro hmem
      rcases List.mem_map.mp hmem with ⟨p, hp, hpe⟩
      rcases mem_assocSet rest k v p hp with h' | h'
      · rw [h'] at hpe
        exact hq hpe.symm
      · exact hq1 (hpe ▸ List.mem_map_of_mem Prod.fst h')

theorem tblKeys_nodup_assocRemove {α : Type} (l : List (Tuple × α)) (k : Tuple)
    (hn : (tblKeys l).Nodup) : (tblKeys (assocRemove l k)).Nodup :=
  (((assocRemove_sublist l k).map Prod.fst).nodup hn)

theorem assocGet_assocRemove_self {α : Type} (l : List (Tuple × α)) (k : Tuple)
    (hn : (tblKeys l).Nodup) : assocGet (assocRemove l k) k = none := by
  induction l with
  | nil => simp [assocRemove, assocGet]
  | cons q rest ih =>
    have hq1 : q.1 ∉ rest.map Prod.fst := (List.nodup_cons.mp hn).1
    have hqrest : (tblKeys rest).Nodup := (List.nodup_cons.mp hn).2
    by_cases hq : q.1 = k
    · subst hq
      simp only [assocRemove, if_pos rfl]
      clear ih hn
      induction rest with
      | nil => simp [assocGet]
      | cons r rrest ihr =>
        simp only [List.map_cons, List.mem_cons] at hq1
        push_neg at hq1
        have hr : ¬(r.1 = q.1) := fun hh => hq1.1 hh.symm
        simp only [assocGet, if_neg hr]
        exact ihr hq1.2 ((List.nodup_cons.mp hqrest).2)
    · simp only [assocRemove, if_neg hq, assocGet, if_neg hq, ih hqrest]

theorem assocGet_assocRemove_ne {α : Type} (l : List (Tuple × α)) (k k' : Tuple)
    (h : k' ≠ k) : assocGet (assocRemove l k) k' = assocGet l k' := by
  have hne : ¬(k = k') := fun hh => h hh.symm
  induction l with
  | nil => simp [assocRemove]
  | cons q rest ih =>
    by_cases hq : q.1 = k
    · subst hq
      have hq' : ¬(q.1 = k') := hne
      have h1 : assocRemove (q :: rest) q.1 = rest := by simp [assocRemove]
      rw [h1]
      simp only [assocGet, if_neg hq']
    · by_cases hq' : q.1 = k'
      · simp only [assocRemove, if_neg hq, assocGet, if_pos hq']
      · simp only [assocRemove, if_neg hq, assocGet, if_neg hq', ih]

theorem assocRemove_length {α : Type} (l : List (Tuple × α)) (k : Tuple) (v : α)
    (h : assocGet l k = some v) : (assocRemove l k).length + 1 = l.length := by
  induction l with
  | nil => simp [assocGet] at h
  | cons q rest ih =>
    by_cases hq : q.1 = k
    · simp [assocRemove, hq]
    · simp only [assocGet, if_neg hq] at h
      simp [assocRemove, hq, ih h]

/-!  ### Canonical key lemmas -/

theorem make_hashable_perm (t : Tuple) : (make_hashable t).Perm t :=
  List.perm_insertionSort keyLe t

theorem sorted_keyLt_of_nodup (c : Tuple) (hs : List.Sorted keyLe c)
    (hn : keysNodup c) : List.Sorted keyLt c := by
  have h1 : List.Pairwise (fun p q : String × OpResult => p.1 ≠ q.1) c :=
    List.pairwise_map.mp hn
  exact (hs.and h1).imp (fun h => lt_of_le_of_ne h.1 h.2)

theorem keysNodup_of_perm (t1 t2 : Tuple) (hp : t1.Perm t2) (h : keysNodup t1) :
    keysNodup t2 := ((hp.map Prod.fst).nodup_iff).mp h

theorem make_hashable_eq_of_perm (t1 t2 : Tuple) (hn : keysNodup t1)
    (hp : t1.Perm t2) : make_hashable t1 = make_hashable t2 := by
  have hn2 : keysNodup t2 := keysNodup_of_perm t1 t2 hp hn
  have hc1 : keysNodup (make_hashable t1) :=
    keysNodup_of_perm t1 _ (make_hashable_perm t1).symm hn
  have hc2 : keysNodup (make_hashable t2) :=
    keysNodup_of_perm t2 _ (make_hashable_perm t2).symm hn2
  refine List.eq_of_perm_of_sorted (r := keyLt) ?_ ?_ ?_
  · exact (make_hashable_perm t1).trans (hp.trans (make_hashable_perm t2).symm)
  · exact sorted_keyLt_of_nodup _ (List.sorted_insertionSort keyLe t1) hc1
  · exact sorted_keyLt_of_nodup _ (List.sorted_insertionSort keyLe t2) hc2

theorem make_hashable_eq_iff (t1 t2 : Tuple) (h1 : keysNodup t1) :
    make_hashable t1 = make_hashable t2 ↔ t1.Perm t2 := by
  constructor
  · intro h
    exact (make_hashable_perm t1).symm.trans (by rw [h]; exact make_hashable_perm t2)
  · exact make_hashable_eq_of_perm t1 t2 h1

/-!  ### Claim C4: GroupBy with counter -/

theorem groupby_counter_aux (gf : Tuple → Tuple) (K : Tuple) (hgf : ∀ t, gf t = K)
    (tups : List Tuple) (m : ℤ) :
    tups.foldl (groupbyNext gf counter) [(make_hashable K, OpResult.Int m)] =
      [(make_hashable K, OpResult.Int (m + tups.length))] := by
  induction tups generalizing m with
  | nil => simp
  | cons t rest ih =>
    have hstep : groupbyNext gf counter [(make_hashable K, OpResult.Int m)] t =
        [(make_hashable K, OpResult.Int (m + 1))] := by
      unfold groupbyNext
      rw [hgf]
      simp [assocGet, assocSet, counter]
    rw [List.foldl_cons, hstep, ih, List.length_cons]
    congr 3
    push_cast
    ring

/-- C4: after `N ≥ 1` accepts into a GroupBy with the `counter`
reduction and a grouping function mapping every tuple to the same key,
one flush emits downstream exactly one group tuple, whose `out_key`
field holds `Int N`, and then forwards the flush-context tuple
downstream. -/
theorem claim_C4 (gf : Tuple → Tuple) (K ctx : Tuple) (outKey : String)
    (hgf : ∀ t, gf t = K) (tups : List Tuple) (N : ℕ) (hN : tups.length = N)
    (hpos : 1 ≤ N) :
    groupbyReset outKey (tups.foldl (groupbyNext gf counter) []) ctx =
      ([], [Ev.next (groupEmit outKey ctx (make_hashable K) (OpResult.Int N)),
            Ev.reset ctx]) ∧
    dictGet (groupEmit outKey ctx (make_hashable K) (OpResult.Int N)) outKey =
      some (OpResult.Int N) := by
  constructor
  · cases tups with
    | nil =>
      simp at hN
      omega
    | cons t rest =>
      have h1 : groupbyNext gf counter [] t = [(make_hashable K, OpResult.Int 1)] := by
        unfold groupbyNext
        rw [hgf]
        simp [assocGet, assocSet, counter]
      have hNe : (1 : ℤ) + (rest.length : ℤ) = (N : ℤ) := by
        simp [List.length_cons] at hN
        omega
      rw [List.foldl_cons, h1, groupby_counter_aux gf K hgf rest 1, hNe]
      rfl
  · unfold groupEmit
    exact dictGet_dictSet_self _ _ _

theorem claim_C4_witness :
    groupbyReset "pkts"
      ((List.replicate 5 ([] : Tuple)).foldl (groupbyNext (fun _ => []) counter) []) [] =
      ([], [Ev.next (groupEmit "pkts" [] (make_hashable []) (OpResult.Int 5)),
            Ev.reset []]) :=
  (claim_C4 (fun _ => []) [] [] "pkts" (fun _ => rfl) (List.replicate 5 [])
    5 (by decide) (by decide)).1

/-!  ### Claim C5: Distinct cardinality -/

theorem mem_setInsert (s : List Tuple) (k x : Tuple) :
    x ∈ setInsert s k ↔ x ∈ s ∨ x = k := by
  unfold setInsert
  by_cases h : k ∈ s
  · rw [if_pos h]
    constructor
    · exact Or.inl
    · rintro (hx | hx)
      · exact hx
      · rw [hx]
        exact h
  · rw [if_neg h]
    simp

theorem nodup_setInsert (s : List Tuple) (k : Tuple) (h : s.Nodup) :
    (setInsert s k).Nodup := by
  unfold setInsert
  by_cases hk : k ∈ s
  · simpa [hk]
  · rw [if_neg hk]
    refine h.append (List.nodup_singleton k) ?_
    simp [List.disjoint_singleton, hk]

theorem distinct_fold_mem (gf : Tuple → Tuple) (tups : List Tuple) (acc : List Tuple)
    (x : Tuple) :
    x ∈ tups.foldl (distinctNext gf) acc ↔
      x ∈ acc ∨ x ∈ tups.map (fun t => make_hashable (gf t)) := by
  induction tups generalizing acc with
  | nil => simp
  | cons t rest ih =>
    rw [List.foldl_cons, ih]
    simp [distinctNext, mem_setInsert]
    tauto

theorem distinct_fold_nodup (gf : Tuple → Tuple) (tups : List Tuple)
    (acc : List Tuple) (h : acc.Nodup) :
    (tups.foldl (distinctNext gf) acc).Nodup := by
  induction tups generalizing acc with
  | nil => simpa
  | cons t rest ih =>
    rw [List.foldl_cons]
    exact ih _ (nodup_setInsert _ _ h)

theorem distinct_fold_length (gf : Tuple → Tuple) (tups : List Tuple) :
    (tups.foldl (distinctNext gf) []).length =
      (tups.map (fun t => make_hashable (gf t))).dedup.length := by
  have h1 : (tups.foldl (distinctNext gf) []).Nodup :=
    distinct_fold_nodup gf tups [] (by simp)
  rw [← List.card_toFinset, ← List.toFinset_card_of_nodup h1]
  congr 1
  ext x
  simp [List.mem_toFinset, distinct_fold_mem]

/-- C5: the number of tuples Distinct emits downstream on flush equals
the number of distinct canonical grouping-key values of `group_fn`
across the accepts since the last flush (canonical forms coincide
exactly when two grouping keys have the same bindings); the flush ends
by forwarding the flush-context tuple downstream, and the key set is
cleared. -/
theorem claim_C5 (gf : Tuple → Tuple) (tups : List Tuple) (ctx : Tuple) :
    ((distinctReset (tups.foldl (distinctNext gf) []) ctx).2.countP Ev.isNext) =
      (tups.map (fun t => make_hashable (gf t))).dedup.length ∧
    (distinctReset (tups.foldl (distinctNext gf) []) ctx).2.getLast? =
      some (Ev.reset ctx) ∧
    (distinctReset (tups.foldl (distinctNext gf) []) ctx).1 = [] ∧
    (∀ a b : Tuple, keysNodup a → (make_hashable a = make_hashable b ↔ a.Perm b)) := by
  refine ⟨?_, ?_, rfl, fun a b ha => make_hashable_eq_iff a b ha⟩
  · unfold distinctReset
    rw [List.countP_append, List.countP_map]
    have hcomp : (Ev.isNext ∘ fun k => Ev.next (distinctEmit ctx k)) = fun _ => true := rfl
    rw [hcomp, List.countP_true]
    simp [Ev.isNext]
    exact distinct_fold_length gf tups
  · unfold distinctReset
    simp

theorem claim_C5_witness :
    ((distinctReset ([[("ipv4.src", OpResult.Int 1)], [("ipv4.src", OpResult.Int 1)],
        [("ipv4.src", OpResult.Int 1)], [("ipv4.src", OpResult.Int 2)]].foldl
          (distinctNext (fun t => t)) []) []).2.countP Ev.isNext) = 2 := by
  have h := (claim_C5 (fun t => t)
    [[("ipv4.src", OpResult.Int 1)], [("ipv4.src", OpResult.Int 1)],
      [("ipv4.src", OpResult.Int 1)], [("ipv4.src", OpResult.Int 2)]] []).1
  rw [h]
  decide

/-!  ### Claim C3: Epoch windowing -/

theorem nextKeyVals_nil (keyOut : String) : nextKeyVals keyOut [] = [] := rfl

theorem nextKeyVals_append (keyOut : String) (l1 l2 : List Ev) :
    nextKeyVals keyOut (l1 ++ l2) = nextKeyVals keyOut l1 ++ nextKeyVals keyOut l2 := by
  simp [nextKeyVals, List.filterMap_append]

theorem nextKeyVals_next_cons (keyOut : String) (t : Tuple) (l : List Ev) :
    nextKeyVals keyOut (Ev.next t :: l) = dictGet t keyOut :: nextKeyVals keyOut l := by
  simp [nextKeyVals, List.filterMap_cons]

theorem nextKeyVals_reset_cons (keyOut : String) (t : Tuple) (l : List Ev) :
    nextKeyVals keyOut (Ev.reset t :: l) = nextKeyVals keyOut l := by
  simp [nextKeyVals, List.filterMap_cons]

theorem epochLoop_spec (w : ℚ) (hw : 0 < w) (keyOut : String)
    (boundary : ℚ) (eid : ℤ) (time : ℚ) :
    time < (epochLoop w hw keyOut boundary eid time).1 ∧
    eid ≤ (epochLoop w hw keyOut boundary eid time).2.1 ∧
    (epochLoop w hw keyOut boundary eid time).1 =
      boundary + (((epochLoop w hw keyOut boundary eid time).2.1 - eid : ℤ) : ℚ) * w ∧
    ((epochLoop w hw keyOut boundary eid time).2.1 = eid ∨
      boundary + (((epochLoop w hw keyOut boundary eid time).2.1 - eid - 1 : ℤ) : ℚ) * w
        ≤ time) ∧
    nextKeyVals keyOut (epochLoop w hw keyOut boundary eid time).2.2 = [] := by
  induction boundary, eid, time using epochLoop.induct w hw keyOut with
  | case1 b e t h ih =>
    rw [epochLoop, dif_pos h]
    dsimp only
    obtain ⟨ih1, ih2, ih3, ih4, ih5⟩ := ih
    refine ⟨ih1, by omega, ?_, ?_, ?_⟩
    · rw [ih3]
      push_cast
      ring
    · rcases ih4 with h4 | h4
      · right
        have hz : (((epochLoop w hw keyOut (b + w) (e + 1) t).2.1 - e - 1 : ℤ) : ℚ) = 0 := by
          rw [h4]
          push_cast
          ring
        rw [hz, zero_mul, add_zero]
        exact h
      · right
        have hre : b + (((epochLoop w hw keyOut (b + w) (e + 1) t).2.1 - e - 1 : ℤ) : ℚ) * w
            = (b + w) + (((epochLoop w hw keyOut (b + w) (e + 1) t).2.1 - (e + 1) - 1 : ℤ) : ℚ) * w := by
          push_cast
          ring
        rw [hre]
        exact h4
    · rw [nextKeyVals_reset_cons]
      exact ih5
  | case2 b e t h =>
    rw [epochLoop, dif_neg h]
    dsimp only
    refine ⟨not_le.mp h, le_refl e, ?_, Or.inl rfl, nextKeyVals_nil keyOut⟩
    push_cast
    ring

theorem runEpoch_inv (w : ℚ) (hw : 0 < w) (keyOut : String) (t0 : ℚ) (ht0 : 0 ≤ t0) :
    ∀ (tups : List Tuple) (times : List ℚ) (tl : ℚ) (e : ℤ),
      tups.map timeOf = times.map some →
      List.Chain' (· < ·) (tl :: times) →
      0 ≤ e →
      t0 + e * w ≤ tl →
      tl < t0 + (e + 1) * w →
      nextKeyVals keyOut (runEpoch w hw keyOut ⟨t0 + (e + 1) * w, e⟩ tups).2 =
        times.map (fun t => some (OpResult.Int ⌊(t - t0) / w⌋)) := by
  intro tups
  induction tups with
  | nil =>
    intro times tl e hmap _ _ _ _
    have : times = [] := by
      cases times with
      | nil => rfl
      | cons a l => simp at hmap
    subst this
    simp [runEpoch, nextKeyVals]
  | cons tup rest ih =>
    intro times tl e hmap hchain he hlo hhi
    cases times with
    | nil => simp at hmap
    | cons t trest =>
      simp only [List.map_cons, List.cons.injEq] at hmap
      obtain ⟨htup, hrest⟩ := hmap
      have hbpos : (0 : ℚ) < t0 + (e + 1) * w := by
        have h1 : (0 : ℚ) < ((e : ℚ) + 1) * w := by
          have : (0 : ℚ) < (e : ℚ) + 1 := by
            have : (0 : ℚ) ≤ (e : ℚ) := by exact_mod_cast he
            linarith
          exact mul_pos this hw
        linarith
      have hbne : ¬(t0 + (e + 1) * w = 0) := ne_of_gt hbpos
      have htl_lt_t : tl < t := (List.chain'_cons.mp hchain).1
      obtain ⟨hs1, hs2, hs3, hs4, hs5⟩ :=
        epochLoop_spec w hw keyOut (t0 + (e + 1) * w) e t
      set r := epochLoop w hw keyOut (t0 + (e + 1) * w) e t with hr
      have hlow : t0 + (r.2.1 : ℚ) * w ≤ t := by
        rcases hs4 with h4 | h4
        · rw [h4]
          calc t0 + (e : ℚ) * w ≤ tl := hlo
            _ ≤ t := le_of_lt htl_lt_t
        · calc t0 + (r.2.1 : ℚ) * w
              = t0 + (e + 1) * w + ((r.2.1 - e - 1 : ℤ) : ℚ) * w := by push_cast; ring
            _ ≤ t := h4
      have hhigh : t < t0 + ((r.2.1 : ℚ) + 1) * w := by
        calc t < r.1 := hs1
          _ = t0 + (e + 1) * w + ((r.2.1 - e : ℤ) : ℚ) * w := hs3
          _ = t0 + ((r.2.1 : ℚ) + 1) * w := by push_cast; ring
      have hfloor : ⌊(t - t0) / w⌋ = r.2.1 := by
        rw [Int.floor_eq_iff]
        constructor
        · rw [le_div_iff hw]
          linarith
        · rw [div_lt_iff hw]
          linarith
      have hstep : epochNext w hw keyOut ⟨t0 + (e + 1) * w, e⟩ tup =
          (⟨r.1, r.2.1⟩, r.2.2 ++ [Ev.next (dictSet tup keyOut (OpResult.Int r.2.1))]) := by
        unfold epochNext
        rw [htup]
        dsimp only
        rw [if_neg hbne]
      have hbrw : r.1 = t0 + ((r.2.1 : ℚ) + 1) * w := by
        rw [hs3]
        push_cast
        ring
      have hnext := ih trest t r.2.1 hrest
        (by
          have := (List.chain'_cons.mp hchain).2
          exact this)
        (le_trans he hs2)
        hlow
        hhigh
      simp only [runEpoch, hstep]
      have hstate : (⟨r.1, r.2.1⟩ : EpochState) = ⟨t0 + ((r.2.1 : ℚ) + 1) * w, r.2.1⟩ := by
        rw [hbrw]
      rw [hstate]
      rw [nextKeyVals_append, nextKeyVals_append, hs5, nextKeyVals_next_cons,
        nextKeyVals_nil, dictGet_dictSet_self, hnext, List.map_cons, hfloor]
      simp

/-- C3 counterexample: with width 1 and the strictly increasing float
times `[-1, 2]`, the first accept sets the boundary to `-1 + 1 = 0.0`,
which the next accept mistakes for the uninitialized sentinel, so the
second forwarded tuple carries eid 0 while
`floor((2 - (-1)) / 1) = 3`: the claimed formula fails. -/
theorem claim_C3_cex :
    nextKeyVals "eid" (runEpoch 1 one_pos "eid" epochInit
        [[("time", OpResult.Float (-1))], [("time", OpResult.Float 2)]]).2 =
      [some (OpResult.Int 0), some (OpResult.Int 0)] ∧
    (⌊(((2 : ℚ) - (-1)) / 1 : ℚ)⌋ : ℤ) = 3 ∧
    List.Chain' (· < ·) [(-1 : ℚ), 2] ∧ (0 : ℚ) < 1 := by
  have l1 : epochLoop 1 one_pos "eid" 0 0 (-1) = (0, 0, []) := by
    rw [epochLoop, dif_neg (by norm_num)]
  have l2 : epochLoop 1 one_pos "eid" 3 0 2 = (3, 0, []) := by
    rw [epochLoop, dif_neg (by norm_num)]
  refine ⟨?_, by norm_num, by norm_num, by norm_num⟩
  have s1 : epochNext 1 one_pos "eid" epochInit [("time", OpResult.Float (-1))] =
      (⟨0, 0⟩, [Ev.next [("time", OpResult.Float (-1)), ("eid", OpResult.Int 0)]]) := by
    unfold epochNext epochInit
    have ht : timeOf [("time", OpResult.Float (-1))] = some (-1) := rfl
    rw [ht]
    dsimp only
    rw [if_pos rfl]
    norm_num [l1]
    rfl
  have s2 : epochNext 1 one_pos "eid" ⟨0, 0⟩ [("time", OpResult.Float 2)] =
      (⟨3, 0⟩, [Ev.next [("time", OpResult.Float 2), ("eid", OpResult.Int 0)]]) := by
    unfold epochNext
    have ht : timeOf [("time", OpResult.Float 2)] = some 2 := rfl
    rw [ht]
    dsimp only
    rw [if_pos rfl]
    norm_num [l2]
    rfl
  simp only [runEpoch, s1, s2, nextKeyVals, List.filterMap_append, List.filterMap_cons,
    List.filterMap_nil]
  rfl

/-- C3 (amended): for a stream of tuples whose `time` fields are
strictly increasing *nonnegative* floats fed into an Epoch operator with
width > 0, the eid attached under `key_out` to each forwarded tuple
equals `floor((time - time_0) / width)` relative to the first observed
time, and the attached eid sequence is non-decreasing.  (Without the
nonnegativity assumption the `boundary == 0.0` uninitialized-sentinel
test can retrigger, as the counterexample shows.) -/
theorem claim_C3_amended (w : ℚ) (hw : 0 < w) (keyOut : String)
    (tups : List Tuple) (t0 : ℚ) (trest : List ℚ)
    (htimes : tups.map timeOf = (t0 :: trest).map some)
    (hchain : List.Chain' (· < ·) (t0 :: trest))
    (ht0 : 0 ≤ t0) :
    nextKeyVals keyOut (runEpoch w hw keyOut epochInit tups).2 =
      (t0 :: trest).map (fun t => some (OpResult.Int ⌊(t - t0) / w⌋)) ∧
    List.Chain' (· ≤ ·) ((t0 :: trest).map (fun t => ⌊(t - t0) / w⌋)) := by
  constructor
  · cases tups with
    | nil => simp at htimes
    | cons tup rest =>
      simp only [List.map_cons, List.cons.injEq] at htimes
      obtain ⟨htup, hrest⟩ := htimes
      have hloop : epochLoop w hw keyOut (t0 + w) 0 t0 = (t0 + w, 0, []) := by
        rw [epochLoop, dif_neg (by linarith)]
      have hstep : epochNext w hw keyOut epochInit tup =
          (⟨t0 + w, 0⟩, [Ev.next (dictSet tup keyOut (OpResult.Int 0))]) := by
        unfold epochNext epochInit
        rw [htup]
        dsimp only
        rw [if_pos rfl, hloop]
        rfl
      have hnext := runEpoch_inv w hw keyOut t0 ht0 rest trest t0 0 hrest
        hchain le_rfl (by push_cast; linarith) (by push_cast; linarith)
      simp only [runEpoch, hstep]
      have hstate : (⟨t0 + w, 0⟩ : EpochState) = ⟨t0 + ((0 : ℤ) + 1) * w, 0⟩ := by
        norm_num
      rw [hstate]
      have hsingle : [Ev.next (dictSet tup keyOut (OpResult.Int 0))] =
          Ev.next (dictSet tup keyOut (OpResult.Int 0)) :: [] := rfl
      rw [hsingle, List.cons_append, nextKeyVals_next_cons, List.nil_append,
        dictGet_dictSet_self, hnext, List.map_cons]
      have hf0 : ⌊(t0 - t0) / w⌋ = 0 := by
        simp
      rw [hf0]
  · rw [List.chain'_map]
    refine hchain.imp ?_
    intro a b hab
    apply Int.floor_le_floor
    rw [div_le_div_iff_of_pos_right hw]
    linarith

theorem claim_C3_amended_witness :
    nextKeyVals "eid" (runEpoch 2 two_pos "eid" epochInit
        [[("time", OpResult.Float 0)], [("time", OpResult.Float 1)],
         [("time", OpResult.Float 3)], [("time", OpResult.Float 5)]]).2 =
      [some (OpResult.Int ⌊(((0 : ℚ) - 0) / 2 : ℚ)⌋),
       some (OpResult.Int ⌊(((1 : ℚ) - 0) / 2 : ℚ)⌋),
       some (OpResult.Int ⌊(((3 : ℚ) - 0) / 2 : ℚ)⌋),
       some (OpResult.Int ⌊(((5 : ℚ) - 0) / 2 : ℚ)⌋)] := by
  have h := (claim_C3_amended 2 two_pos "eid"
    [[("time", OpResult.Float 0)], [("time", OpResult.Float 1)],
     [("time", OpResult.Float 3)], [("time", OpResult.Float 5)]]
    0 [1, 3, 5] (by decide)
    (by norm_num [List.chain'_cons, List.chain'_singleton]) (by norm_num)).1
  simpa using h

/-!  ### Claim C6: sum_ints -/

/-- C6 counterexample: the claim states `sum_ints` fails with an error
whenever the field is absent, but the chat-code implementation catches
the lookup failure and returns the current accumulator unchanged (a
total, non-failing result), diverging from the spec-modelled reduction
which fails. -/
theorem claim_C6_cex :
    sum_ints "f" (OpResult.Int 5) [] = OpResult.Int 5 ∧
    sum_ints "f" OpResult.Empty [("g", OpResult.Int 1)] = OpResult.Empty ∧
    sumIntsSpec "f" (OpResult.Int 5) [] = Except.error "AggregationFailure" := by
  refine ⟨rfl, by decide, rfl⟩

/-- C6 (amended): `sum_ints(field)` on accumulator `Empty` returns
`Int(0 + t[field])` and on `Int(n)` returns `Int(n + t[field])` when the
field is present with an integer value; when the field is absent or not
an integer it does not fail but returns the current accumulator
unchanged (the caught-exception path). -/
theorem claim_C6_amended (searchKey : String) (t : Tuple) (n v : ℤ) (a : OpResult) :
    (lookupIntOpt searchKey t = some v →
      sum_ints searchKey OpResult.Empty t = OpResult.Int (0 + v) ∧
      sum_ints searchKey (OpResult.Int n) t = OpResult.Int (n + v)) ∧
    (lookupIntOpt searchKey t = none → sum_ints searchKey a t = a) := by
  constructor
  · intro h
    unfold sum_ints
    rw [h]
    exact ⟨by rw [zero_add], rfl⟩
  · intro h
    unfold sum_ints
    rw [h]

theorem claim_C6_amended_witness :
    sum_ints "f" OpResult.Empty [("f", OpResult.Int 7)] = OpResult.Int (0 + 7) ∧
    sum_ints "f" (OpResult.Int 5) [("f", OpResult.Int 7)] = OpResult.Int (5 + 7) ∧
    sum_ints "f" (OpResult.Int 5) [("g", OpResult.Int 7)] = OpResult.Int 5 := by
  have h := claim_C6_amended "f" [("f", OpResult.Int 7)] 5 7 (OpResult.Int 5)
  have h2 := claim_C6_amended "f" [("g", OpResult.Int 7)] 5 7 (OpResult.Int 5)
  exact ⟨(h.1 (by decide)).1, (h.1 (by decide)).2, h2.2 (by decide)⟩

/-!  ### Claim C7: Filter error propagation -/

/-- C7 counterexample: the claim states a predicate error propagates to
the caller of `FilterOperator.next`, but the chat-code implementation
catches it and returns normally with the tuple dropped; the `py-files`
translation, by contrast, does propagate the error. -/
theorem claim_C7_cex :
    filterNext (fun _ => Except.error "boom") [("x", OpResult.Int 1)] = [] ∧
    filterNextTranslated (fun _ => Except.error "boom") [("x", OpResult.Int 1)] =
      Except.error "boom" :=
  ⟨rfl, rfl⟩

/-- C7 (amended): when the Filter predicate raises on a tuple, the tuple
is not forwarded downstream and nothing is retried; in the chat-code
translation the error is caught and logged, so no error reaches the
caller, while in the `py-files` translation the same error propagates to
the caller. -/
theorem claim_C7_amended (pred : Tuple → Except String Bool) (t : Tuple) (e : String)
    (h : pred t = Except.error e) :
    filterNext pred t = [] ∧
    filterNextTranslated pred t = Except.error e := by
  unfold filterNext filterNextTranslated
  rw [h]
  exact ⟨rfl, rfl⟩

theorem claim_C7_amended_witness :
    filterNext (fun _ => Except.error "missing field") [] = [] ∧
    filterNextTranslated (fun _ => Except.error "missing field") [] =
      Except.error "missing field" :=
  claim_C7_amended (fun _ => Except.error "missing field") [] "missing field" rfl

/-!  ### Claim C8: canonical grouping/join keys -/

/-- C8: canonical keys are order-independent and structural: two key
tuples with the same key-to-value bindings, built in any insertion
orders (i.e. permutations of one another, keys unique), have equal
canonical hashable forms and therefore denote the same entry in the
GroupBy, Distinct and Join hash tables. -/
theorem claim_C8 (t1 t2 : Tuple) (h1 : keysNodup t1) (hp : t1.Perm t2) :
    make_hashable t1 = make_hashable t2 ∧
    (∀ (α : Type) (tbl : List (Tuple × α)),
      assocGet tbl (make_hashable t1) = assocGet tbl (make_hashable t2)) ∧
    (∀ s : List Tuple, setInsert s (make_hashable t1) = setInsert s (make_hashable t2)) := by
  have h := make_hashable_eq_of_perm t1 t2 h1 hp
  exact ⟨h, fun α tbl => by rw [h], fun s => by rw [h]⟩

theorem claim_C8_witness :
    make_hashable [("b", OpResult.Int 2), ("a", OpResult.Int 1)] =
      make_hashable [("a", OpResult.Int 1), ("b", OpResult.Int 2)] :=
  (claim_C8 [("b", OpResult.Int 2), ("a", OpResult.Int 1)]
    [("a", OpResult.Int 1), ("b", OpResult.Int 2)] (by decide) (by decide)).1

/-!  ### Claim C9: first-argument-wins merge precedence -/

/-- C9: `merge_tuples` with precedence `'first'` keeps, for each key,
the value from the earliest argument containing it; consequently in
GroupBy and Distinct flush the flush-context tuple's fields override
same-named grouping-key fields (outside the `out_key` slot, which is
overwritten by the accumulator), and in the Join emission the
key-plus-epoch tuple overrides both value tuples, with the matching
side's own values overriding the stored other-side values. -/
theorem claim_C9 :
    (∀ (ts : List Tuple) (k : String), (∀ t ∈ ts, keysNodup t) →
      dictGet (merge_tuples ts) k = ts.findSome? (fun t => dictGet t k)) ∧
    (∀ (outKey k : String) (ctx K : Tuple) (v vv : OpResult),
      keysNodup ctx → keysNodup K → k ≠ outKey → dictGet ctx k = some vv →
      dictGet (groupEmit outKey ctx K v) k = some vv) ∧
    (∀ (k : String) (ctx K : Tuple) (vv : OpResult),
      keysNodup ctx → keysNodup K → dictGet ctx k = some vv →
      dictGet (distinctEmit ctx K) k = some vv) ∧
    (∀ (k : String) (jk v ov : Tuple),
      keysNodup jk → keysNodup v → keysNodup ov →
      dictGet (merge_tuples [jk, v, ov]) k =
        ((dictGet jk k).or ((dictGet v k).or (dictGet ov k)))) := by
  refine ⟨fun ts k h => dictGet_merge_tuples ts k h, ?_, ?_, ?_⟩
  · intro outKey k ctx K v vv hctx hK hk hget
    unfold groupEmit
    rw [dictGet_dictSet_ne _ _ _ _ hk,
      dictGet_merge_tuples [ctx, K] k (by intro t ht; simp at ht; rcases ht with h | h <;> simp [h, hctx, hK])]
    simp [List.findSome?, hget]
  · intro k ctx K vv hctx hK hget
    unfold distinctEmit
    rw [dictGet_merge_tuples [ctx, K] k (by intro t ht; simp at ht; rcases ht with h | h <;> simp [h, hctx, hK])]
    simp [List.findSome?, hget]
  · intro k jk v ov hjk hv hov
    rw [dictGet_merge_tuples [jk, v, ov] k
      (by intro t ht; simp at ht; rcases ht with h | h | h <;> simp [h, hjk, hv, hov])]
    cases h1 : dictGet jk k <;> cases h2 : dictGet v k <;>
      cases h3 : dictGet ov k <;>
      simp [List.findSome?, h1, h2, h3, Option.or]

theorem claim_C9_witness :
    dictGet (merge_tuples [[("a", OpResult.Int 1)], [("a", OpResult.Int 2), ("b", OpResult.Int 3)]]) "a"
      = some (OpResult.Int 1) ∧
    dictGet (groupEmit "cnt" [("eid", OpResult.Int 7)] [("eid", OpResult.Int 0)]
      (OpResult.Int 5)) "eid" = some (OpResult.Int 7) := by
  constructor
  · have h := claim_C9.1 [[("a", OpResult.Int 1)], [("a", OpResult.Int 2), ("b", OpResult.Int 3)]]
      "a" (by decide)
    rw [h]
    decide
  · exact claim_C9.2.1 "cnt" "eid" [("eid", OpResult.Int 7)] [("eid", OpResult.Int 0)]
      (OpResult.Int 5) (OpResult.Int 7) (by decide) (by decide) (by decide) (by decide)

/-!  ### Join: epoch-advancement loop lemmas -/

theorem advanceLoop_counter (eidKey : String) (otherE : ℤ) (n : ℕ) (curr : ℤ) :
    (advanceLoop eidKey otherE n curr).1 = curr + n := by
  induction n generalizing curr with
  | zero => simp [advanceLoop]
  | succ m ih =>
    simp only [advanceLoop]
    rw [ih]
    omega

theorem advanceLoop_resets (eidKey : String) (otherE : ℤ) (n : ℕ) (curr : ℤ) :
    ∀ e ∈ (advanceLoop eidKey otherE n curr).2, ∃ c : ℤ,
      e = JEv.reset [(eidKey, OpResult.Int c)] ∧ curr ≤ c ∧ c < curr + n ∧ c < otherE := by
  induction n generalizing curr with
  | zero =>
    intro e he
    simp [advanceLoop] at he
  | succ m ih =>
    intro e he
    simp only [advanceLoop] at he
    rcases List.mem_append.mp he with hhead | htail
    · by_cases hg : otherE > curr
      · rw [if_pos hg] at hhead
        simp at hhead
        exact ⟨curr, hhead, le_refl curr, by omega, hg⟩
      · rw [if_neg hg] at hhead
        simp at hhead
    · obtain ⟨c, h1, h2, h3, h4⟩ := ih (curr + 1) e htail
      exact ⟨c, h1, by omega, by omega, h4⟩

theorem advanceLoop_no_match (eidKey : String) (otherE : ℤ) (n : ℕ) (curr : ℤ)
    (jk vv ov : Tuple) : JEv.matchEmit jk vv ov ∉ (advanceLoop eidKey otherE n curr).2 := by
  intro hmem
  obtain ⟨c, hc, _⟩ := advanceLoop_resets eidKey otherE n curr _ hmem
  simp at hc

theorem advanceEpochs_counter (eidKey : String) (otherE curr target : ℤ) :
    (advanceEpochs eidKey otherE curr target).1 = max curr target := by
  unfold advanceEpochs
  rw [advanceLoop_counter]
  omega

theorem advanceEpochs_resets (eidKey : String) (otherE curr target : ℤ) :
    ∀ e ∈ (advanceEpochs eidKey otherE curr target).2, ∃ c : ℤ,
      e = JEv.reset [(eidKey, OpResult.Int c)] ∧ curr ≤ c ∧ c < target ∧ c < otherE := by
  intro e he
  obtain ⟨c, h1, h2, h3, h4⟩ := advanceLoop_resets _ _ _ _ e he
  exact ⟨c, h1, h2, by omega, h4⟩

theorem emitCount_append (l1 l2 : List JEv) (K : Tuple) :
    emitCount (l1 ++ l2) K = emitCount l1 K + emitCount l2 K := by
  simp [emitCount, List.countP_append]

theorem emitCount_advanceEpochs (eidKey : String) (otherE curr target : ℤ) (K : Tuple) :
    emitCount (advanceEpochs eidKey otherE curr target).2 K = 0 := by
  unfold emitCount
  rw [List.countP_eq_zero]
  intro e he
  obtain ⟨c, hc, _⟩ := advanceEpochs_resets _ _ _ _ e he
  subst hc
  simp

/-!  ### Join: one-step shape lemmas -/

theorem joinSideNext_lookup_none (eidKey : String) (extr : Tuple → Tuple × Tuple)
    (own other : List (Tuple × Tuple)) (curr otherE : ℤ) (tup : Tuple)
    (h : lookupIntOpt eidKey tup = none) :
    joinSideNext eidKey extr own other curr otherE tup = (own, other, curr, []) := by
  unfold joinSideNext
  rw [h]

theorem joinSideNext_match (eidKey : String) (extr : Tuple → Tuple × Tuple)
    (own other : List (Tuple × Tuple)) (curr otherE : ℤ) (tup : Tuple) (ep : ℤ) (ov : Tuple)
    (h : lookupIntOpt eidKey tup = some ep)
    (hget : assocGet other
      (make_hashable (dictSet (extr tup).1 eidKey (OpResult.Int ep))) = some ov) :
    joinSideNext eidKey extr own other curr otherE tup =
      (own,
       assocRemove other (make_hashable (dictSet (extr tup).1 eidKey (OpResult.Int ep))),
       (advanceEpochs eidKey otherE curr ep).1,
       (advanceEpochs eidKey otherE curr ep).2 ++
         [JEv.matchEmit (dictSet (extr tup).1 eidKey (OpResult.Int ep)) (extr tup).2 ov]) := by
  unfold joinSideNext
  rw [h]
  dsimp only
  rw [hget]

theorem joinSideNext_store (eidKey : String) (extr : Tuple → Tuple × Tuple)
    (own other : List (Tuple × Tuple)) (curr otherE : ℤ) (tup : Tuple) (ep : ℤ)
    (h : lookupIntOpt eidKey tup = some ep)
    (hget : assocGet other
      (make_hashable (dictSet (extr tup).1 eidKey (OpResult.Int ep))) = none) :
    joinSideNext eidKey extr own other curr otherE tup =
      (assocSet own (make_hashable (dictSet (extr tup).1 eidKey (OpResult.Int ep)))
         (extr tup).2,
       other,
       (advanceEpochs eidKey otherE curr ep).1,
       (advanceEpochs eidKey otherE curr ep).2) := by
  unfold joinSideNext
  rw [h]
  dsimp only
  rw [hget]

theorem joinSideNext_counter (eidKey : String) (extr : Tuple → Tuple × Tuple)
    (own other : List (Tuple × Tuple)) (curr otherE : ℤ) (tup : Tuple) :
    (joinSideNext eidKey extr own other curr otherE tup).2.2.1 =
      (match lookupIntOpt eidKey tup with
       | none => curr
       | some ep => max curr ep) := by
  cases hep : lookupIntOpt eidKey tup with
  | none => rw [joinSideNext_lookup_none _ _ _ _ _ _ _ hep]
  | some ep =>
    cases hget : assocGet other
        (make_hashable (dictSet (extr tup).1 eidKey (OpResult.Int ep))) with
    | none =>
      rw [joinSideNext_store _ _ _ _ _ _ _ _ hep hget]
      exact advanceEpochs_counter _ _ _ _
    | some ov =>
      rw [joinSideNext_match _ _ _ _ _ _ _ _ _ hep hget]
      exact advanceEpochs_counter _ _ _ _

theorem joinSideNext_resets (eidKey : String) (extr : Tuple → Tuple × Tuple)
    (own other : List (Tuple × Tuple)) (curr otherE : ℤ) (tup : Tuple) :
    ∀ rt, JEv.reset rt ∈ (joinSideNext eidKey extr own other curr otherE tup).2.2.2 →
      ∃ c ep : ℤ, rt = [(eidKey, OpResult.Int c)] ∧ lookupIntOpt eidKey tup = some ep ∧
        curr ≤ c ∧ c < ep ∧ c < otherE := by
  intro rt hmem
  cases hep : lookupIntOpt eidKey tup with
  | none =>
    rw [joinSideNext_lookup_none _ _ _ _ _ _ _ hep] at hmem
    simp at hmem
  | some ep =>
    cases hget : assocGet other
        (make_hashable (dictSet (extr tup).1 eidKey (OpResult.Int ep))) with
    | none =>
      rw [joinSideNext_store _ _ _ _ _ _ _ _ hep hget] at hmem
      obtain ⟨c, h1, h2, h3, h4⟩ := advanceEpochs_resets _ _ _ _ _ hmem
      exact ⟨c, ep, by simpa using h1, rfl, h2, h3, h4⟩
    | some ov =>
      rw [joinSideNext_match _ _ _ _ _ _ _ _ _ hep hget] at hmem
      dsimp only at hmem
      rcases List.mem_append.mp hmem with hadv | hlast
      · obtain ⟨c, h1, h2, h3, h4⟩ := advanceEpochs_resets _ _ _ _ _ hadv
        exact ⟨c, ep, by simpa using h1, rfl, h2, h3, h4⟩
      · simp at hlast

theorem joinSideReset_counter (eidKey : String) (otherE curr : ℤ) (tup : Tuple) :
    (joinSideReset eidKey otherE curr tup).1 =
      (match lookupIntOpt eidKey tup with
       | none => curr
       | some ep => max curr ep) := by
  cases hep : lookupIntOpt eidKey tup with
  | none => unfold joinSideReset; rw [hep]
  | some ep =>
    unfold joinSideReset
    rw [hep]
    exact advanceEpochs_counter _ _ _ _

theorem joinSideReset_resets (eidKey : String) (otherE curr : ℤ) (tup : Tuple) :
    ∀ rt, JEv.reset rt ∈ (joinSideReset eidKey otherE curr tup).2 →
      ∃ c ep : ℤ, rt = [(eidKey, OpResult.Int c)] ∧ lookupIntOpt eidKey tup = some ep ∧
        curr ≤ c ∧ c < ep ∧ c < otherE := by
  intro rt hmem
  cases hep : lookupIntOpt eidKey tup with
  | none =>
    unfold joinSideReset at hmem
    rw [hep] at hmem
    simp at hmem
  | some ep =>
    unfold joinSideReset at hmem
    rw [hep] at hmem
    obtain ⟨c, h1, h2, h3, h4⟩ := advanceEpochs_resets _ _ _ _ _ hmem
    exact ⟨c, ep, by simpa using h1, rfl, h2, h3, h4⟩

/-!  ### Claim C1: Join monotone flush -/

theorem sideSaw_mono (cfg : JoinCfg) (l1 l2 : List JIn) (sd : Side) (E : ℤ)
    (h : sideSaw cfg l1 sd E) : sideSaw cfg (l1 ++ l2) sd E := by
  obtain ⟨i, hi, hs, hep⟩ := h
  exact ⟨i, List.mem_append_left _ hi, hs, hep⟩

theorem epochInv_init (cfg : JoinCfg) : epochInv cfg [] initJoin := by
  refine ⟨le_refl 0, le_refl 0, ?_, ?_⟩ <;>
    intro E hE hlt <;> simp [initJoin] at hlt <;> omega

theorem joinStep_next_L (cfg : JoinCfg) (s : JoinState) (t : Tuple) :
    joinStep cfg s (JIn.next Side.L t) =
      (⟨(joinSideNext cfg.eidKey cfg.extrL s.tblL s.tblR s.epL s.epR t).1,
        (joinSideNext cfg.eidKey cfg.extrL s.tblL s.tblR s.epL s.epR t).2.1,
        (joinSideNext cfg.eidKey cfg.extrL s.tblL s.tblR s.epL s.epR t).2.2.1,
        s.epR⟩,
       (joinSideNext cfg.eidKey cfg.extrL s.tblL s.tblR s.epL s.epR t).2.2.2) := rfl

theorem joinStep_next_R (cfg : JoinCfg) (s : JoinState) (t : Tuple) :
    joinStep cfg s (JIn.next Side.R t) =
      (⟨(joinSideNext cfg.eidKey cfg.extrR s.tblR s.tblL s.epR s.epL t).2.1,
        (joinSideNext cfg.eidKey cfg.extrR s.tblR s.tblL s.epR s.epL t).1,
        s.epL,
        (joinSideNext cfg.eidKey cfg.extrR s.tblR s.tblL s.epR s.epL t).2.2.1⟩,
       (joinSideNext cfg.eidKey cfg.extrR s.tblR s.tblL s.epR s.epL t).2.2.2) := rfl

theorem joinStep_reset_L (cfg : JoinCfg) (s : JoinState) (t : Tuple) :
    joinStep cfg s (JIn.reset Side.L t) =
      (⟨s.tblL, s.tblR, (joinSideReset cfg.eidKey s.epR s.epL t).1, s.epR⟩,
       (joinSideReset cfg.eidKey s.epR s.epL t).2) := rfl

theorem joinStep_reset_R (cfg : JoinCfg) (s : JoinState) (t : Tuple) :
    joinStep cfg s (JIn.reset Side.R t) =
      (⟨s.tblL, s.tblR, s.epL, (joinSideReset cfg.eidKey s.epL s.epR t).1⟩,
       (joinSideReset cfg.eidKey s.epL s.epR t).2) := rfl

theorem epochInv_step (cfg : JoinCfg) (pre : List JIn) (s : JoinState) (i : JIn)
    (h : epochInv cfg pre s) : epochInv cfg (pre ++ [i]) (joinStep cfg s i).1 := by
  obtain ⟨hL0, hR0, hLs, hRs⟩ := h
  have hmonoL : ∀ E : ℤ, 0 ≤ E → E < s.epL → sideSaw cfg (pre ++ [i]) Side.L E :=
    fun E hE hlt => sideSaw_mono cfg pre [i] Side.L E (hLs E hE hlt)
  have hmonoR : ∀ E : ℤ, 0 ≤ E → E < s.epR → sideSaw cfg (pre ++ [i]) Side.R E :=
    fun E hE hlt => sideSaw_mono cfg pre [i] Side.R E (hRs E hE hlt)
  have hself : i ∈ pre ++ [i] := List.mem_append_right _ (by simp)
  cases i with
  | next sd t =>
    cases sd with
    | L =>
      rw [joinStep_next_L]
      refine ⟨?_, hR0, ?_, fun E hE hlt => hmonoR E hE hlt⟩
      · show 0 ≤ (joinSideNext cfg.eidKey cfg.extrL s.tblL s.tblR s.epL s.epR t).2.2.1
        rw [joinSideNext_counter]
        cases hep : lookupIntOpt cfg.eidKey t with
        | none => exact hL0
        | some ep => exact le_trans hL0 (le_max_left _ _)
      · intro E hE hlt
        rw [show (⟨(joinSideNext cfg.eidKey cfg.extrL s.tblL s.tblR s.epL s.epR t).1,
            (joinSideNext cfg.eidKey cfg.extrL s.tblL s.tblR s.epL s.epR t).2.1,
            (joinSideNext cfg.eidKey cfg.extrL s.tblL s.tblR s.epL s.epR t).2.2.1,
            s.epR⟩ : JoinState).epL =
            (joinSideNext cfg.eidKey cfg.extrL s.tblL s.tblR s.epL s.epR t).2.2.1 from rfl,
          joinSideNext_counter] at hlt
        cases hep : lookupIntOpt cfg.eidKey t with
        | none =>
          rw [hep] at hlt
          exact hmonoL E hE hlt
        | some ep =>
          rw [hep] at hlt
          rcases lt_max_iff.mp hlt with hlt' | hlt'
          · exact hmonoL E hE hlt'
          · exact ⟨JIn.next Side.L t, hself, rfl, ep,
              by simpa [inputEpoch, JIn.tup] using hep, hlt'⟩
    | R =>
      rw [joinStep_next_R]
      refine ⟨hL0, ?_, fun E hE hlt => hmonoL E hE hlt, ?_⟩
      · show 0 ≤ (joinSideNext cfg.eidKey cfg.extrR s.tblR s.tblL s.epR s.epL t).2.2.1
        rw [joinSideNext_counter]
        cases hep : lookupIntOpt cfg.eidKey t with
        | none => exact hR0
        | some ep => exact le_trans hR0 (le_max_left _ _)
      · intro E hE hlt
        rw [show (⟨(joinSideNext cfg.eidKey cfg.extrR s.tblR s.tblL s.epR s.epL t).2.1,
            (joinSideNext cfg.eidKey cfg.extrR s.tblR s.tblL s.epR s.epL t).1,
            s.epL,
            (joinSideNext cfg.eidKey cfg.extrR s.tblR s.tblL s.epR s.epL t).2.2.1⟩ :
              JoinState).epR =
            (joinSideNext cfg.eidKey cfg.extrR s.tblR s.tblL s.epR s.epL t).2.2.1 from rfl,
          joinSideNext_counter] at hlt
        cases hep : lookupIntOpt cfg.eidKey t with
        | none =>
          rw [hep] at hlt
          exact hmonoR E hE hlt
        | some ep =>
          rw [hep] at hlt
          rcases lt_max_iff.mp hlt with hlt' | hlt'
          · exact hmonoR E hE hlt'
          · exact ⟨JIn.next Side.R t, hself, rfl, ep,
              by simpa [inputEpoch, JIn.tup] using hep, hlt'⟩
  | reset sd t =>
    cases sd with
    | L =>
      rw [joinStep_reset_L]
      refine ⟨?_, hR0, ?_, fun E hE hlt => hmonoR E hE hlt⟩
      · show 0 ≤ (joinSideReset cfg.eidKey s.epR s.epL t).1
        rw [joinSideReset_counter]
        cases hep : lookupIntOpt cfg.eidKey t with
        | none => exact hL0
        | some ep => exact le_trans hL0 (le_max_left _ _)
      · intro E hE hlt
        rw [show (⟨s.tblL, s.tblR, (joinSideReset cfg.eidKey s.epR s.epL t).1,
            s.epR⟩ : JoinState).epL = (joinSideReset cfg.eidKey s.epR s.epL t).1 from rfl,
          joinSideReset_counter] at hlt
        cases hep : lookupIntOpt cfg.eidKey t with
        | none =>
          rw [hep] at hlt
          exact hmonoL E hE hlt
        | some ep =>
          rw [hep] at hlt
          rcases lt_max_iff.mp hlt with hlt' | hlt'
          · exact hmonoL E hE hlt'
          · exact ⟨JIn.reset Side.L t, hself, rfl, ep,
              by simpa [inputEpoch, JIn.tup] using hep, hlt'⟩
    | R =>
      rw [joinStep_reset_R]
      refine ⟨hL0, ?_, fun E hE hlt => hmonoL E hE hlt, ?_⟩
      · show 0 ≤ (joinSideReset cfg.eidKey s.epL s.epR t).1
        rw [joinSideReset_counter]
        cases hep : lookupIntOpt cfg.eidKey t with
        | none => exact hR0
        | some ep => exact le_trans hR0 (le_max_left _ _)
      · intro E hE hlt
        rw [show (⟨s.tblL, s.tblR, s.epL,
            (joinSideReset cfg.eidKey s.epL s.epR t).1⟩ : JoinState).epR =
            (joinSideReset cfg.eidKey s.epL s.epR t).1 from rfl,
          joinSideReset_counter] at hlt
        cases hep : lookupIntOpt cfg.eidKey t with
        | none =>
          rw [hep] at hlt
          exact hmonoR E hE hlt
        | some ep =>
          rw [hep] at hlt
          rcases lt_max_iff.mp hlt with hlt' | hlt'
          · exact hmonoR E hE hlt'
          · exact ⟨JIn.reset Side.R t, hself, rfl, ep,
              by simpa [inputEpoch, JIn.tup] using hep, hlt'⟩

theorem joinStep_reset_sound (cfg : JoinCfg) (s : JoinState) (i : JIn) (rt : Tuple)
    (hmem : JEv.reset rt ∈ (joinStep cfg s i).2) :
    ∃ c ep : ℤ, rt = [(cfg.eidKey, OpResult.Int c)] ∧ inputEpoch cfg i = some ep ∧
      ownEp s i.side ≤ c ∧ c < ep ∧ c < otherEp s i.side := by
  cases i with
  | next sd t =>
    cases sd with
    | L =>
      rw [joinStep_next_L] at hmem
      obtain ⟨c, ep, h1, h2, h3, h4, h5⟩ := joinSideNext_resets _ _ _ _ _ _ _ _ hmem
      exact ⟨c, ep, h1, h2, h3, h4, h5⟩
    | R =>
      rw [joinStep_next_R] at hmem
      obtain ⟨c, ep, h1, h2, h3, h4, h5⟩ := joinSideNext_resets _ _ _ _ _ _ _ _ hmem
      exact ⟨c, ep, h1, h2, h3, h4, h5⟩
  | reset sd t =>
    cases sd with
    | L =>
      rw [joinStep_reset_L] at hmem
      obtain ⟨c, ep, h1, h2, h3, h4, h5⟩ := joinSideReset_resets _ _ _ _ _ hmem
      exact ⟨c, ep, h1, h2, h3, h4, h5⟩
    | R =>
      rw [joinStep_reset_R] at hmem
      obtain ⟨c, ep, h1, h2, h3, h4, h5⟩ := joinSideReset_resets _ _ _ _ _ hmem
      exact ⟨c, ep, h1, h2, h3, h4, h5⟩

theorem ownEp_nonneg (cfg : JoinCfg) (pre : List JIn) (s : JoinState) (sd : Side)
    (h : epochInv cfg pre s) : 0 ≤ ownEp s sd := by
  cases sd with
  | L => exact h.1
  | R => exact h.2.1

theorem otherSaw_of_inv (cfg : JoinCfg) (pre : List JIn) (s : JoinState) (sd : Side)
    (E : ℤ) (hE : 0 ≤ E) (hlt : E < otherEp s sd) (h : epochInv cfg pre s) :
    sideSaw cfg pre sd.other E := by
  cases sd with
  | L => exact h.2.2.2 E hE hlt
  | R => exact h.2.2.1 E hE hlt

theorem joinRun_reset_sound (cfg : JoinCfg) :
    ∀ (inputs pre : List JIn) (s : JoinState), epochInv cfg pre s →
      ∀ rt, JEv.reset rt ∈ (runJoin cfg s inputs).2 →
        ∃ E : ℤ, rt = [(cfg.eidKey, OpResult.Int E)] ∧
          sideSaw cfg (pre ++ inputs) Side.L E ∧ sideSaw cfg (pre ++ inputs) Side.R E := by
  intro inputs
  induction inputs with
  | nil =>
    intro pre s _ rt hmem
    simp [runJoin] at hmem
  | cons i rest ih =>
    intro pre s hinv rt hmem
    simp only [runJoin] at hmem
    rcases List.mem_append.mp hmem with hstep | hrest
    · obtain ⟨c, ep, hrt, hiep, hc1, hc2, hc3⟩ := joinStep_reset_sound cfg s i rt hstep
      have hc0 : 0 ≤ c := le_trans (ownEp_nonneg cfg pre s i.side hinv) hc1
      have hselfSaw : sideSaw cfg (pre ++ i :: rest) i.side c :=
        ⟨i, by simp, rfl, ep, hiep, hc2⟩
      have hotherSaw := otherSaw_of_inv cfg pre s i.side c hc0 hc3 hinv
      have hotherSaw' := sideSaw_mono cfg pre (i :: rest) _ c hotherSaw
      refine ⟨c, hrt, ?_, ?_⟩
      · cases hsd : i.side with
        | L =>
          rw [hsd] at hselfSaw
          exact hselfSaw
        | R =>
          rw [hsd] at hotherSaw'
          simpa [Side.other] using hotherSaw'
      · cases hsd : i.side with
        | L =>
          rw [hsd] at hotherSaw'
          simpa [Side.other] using hotherSaw'
        | R =>
          rw [hsd] at hselfSaw
          exact hselfSaw
    · have hinv' := epochInv_step cfg pre s i hinv
      obtain ⟨E, h1, h2, h3⟩ := ih (pre ++ [i]) (joinStep cfg s i).1 hinv' rt hrest
      rw [List.append_assoc, List.singleton_append] at h2 h3
      exact ⟨E, h1, h2, h3⟩

/-- C1: whenever the join forwards `flush({eid_key: E})` downstream, each
of the two sides has — by that point in the input interleaving — already
processed at least one record (`next`) or explicit flush (`reset`)
carrying an epoch strictly greater than `E`: the emitting side is
processing such an input right now, and the guard requires the other
side's counter to have advanced past `E`, which only happens after it
processed such an input. -/
theorem claim_C1 (cfg : JoinCfg) (inputs : List JIn) (E : ℤ)
    (hmem : Ev.reset [(cfg.eidKey, OpResult.Int E)] ∈
      ((runJoin cfg initJoin inputs).2.map downstreamOfJEv)) :
    (∃ i ∈ inputs, i.side = Side.L ∧ ∃ ep, inputEpoch cfg i = some ep ∧ E < ep) ∧
    (∃ i ∈ inputs, i.side = Side.R ∧ ∃ ep, inputEpoch cfg i = some ep ∧ E < ep) := by
  obtain ⟨je, hje, hmap⟩ := List.mem_map.mp hmem
  have hje' : je = JEv.reset [(cfg.eidKey, OpResult.Int E)] := by
    cases je with
    | reset t =>
      simp [downstreamOfJEv] at hmap
      rw [hmap]
    | matchEmit jk vv ov => simp [downstreamOfJEv] at hmap
  subst hje'
  obtain ⟨E', hrt, hL, hR⟩ :=
    joinRun_reset_sound cfg inputs [] initJoin (epochInv_init cfg) _ hje
  have hEE : E' = E := by
    simp at hrt
    exact hrt.symm
  subst hEE
  simp only [List.nil_append] at hL hR
  exact ⟨hL, hR⟩

theorem claim_C1_witness :
    (Ev.reset [("eid", OpResult.Int 0)] ∈
      ((runJoin ⟨"eid", fun t => ([], t), fun t => ([], t)⟩ initJoin
        [JIn.next Side.L [("eid", OpResult.Int 1)],
         JIn.next Side.R [("eid", OpResult.Int 1)]]).2.map downstreamOfJEv)) ∧
    (∃ i ∈ [JIn.next Side.L [("eid", OpResult.Int 1)],
            JIn.next Side.R [("eid", OpResult.Int 1)]], i.side = Side.L ∧
      ∃ ep, inputEpoch ⟨"eid", fun t => ([], t), fun t => ([], t)⟩ i = some ep ∧
        (0 : ℤ) < ep) ∧
    (∃ i ∈ [JIn.next Side.L [("eid", OpResult.Int 1)],
            JIn.next Side.R [("eid", OpResult.Int 1)]], i.side = Side.R ∧
      ∃ ep, inputEpoch ⟨"eid", fun t => ([], t), fun t => ([], t)⟩ i = some ep ∧
        (0 : ℤ) < ep) := by
  have hmem : Ev.reset [("eid", OpResult.Int 0)] ∈
      ((runJoin ⟨"eid", fun t => ([], t), fun t => ([], t)⟩ initJoin
        [JIn.next Side.L [("eid", OpResult.Int 1)],
         JIn.next Side.R [("eid", OpResult.Int 1)]]).2.map downstreamOfJEv) := by
    decide
  have h := claim_C1 ⟨"eid", fun t => ([], t), fun t => ([], t)⟩
    [JIn.next Side.L [("eid", OpResult.Int 1)],
     JIn.next Side.R [("eid", OpResult.Int 1)]] 0 hmem
  exact ⟨hmem, h.1, h.2⟩

/-!  ### Claim C2: join at-most-one match per stored value -/

theorem advanceEpochs_no_match (eidKey : String) (otherE curr target : ℤ)
    (jk vv ov : Tuple) : JEv.matchEmit jk vv ov ∉ (advanceEpochs eidKey otherE curr target).2 := by
  intro hmem
  obtain ⟨c, hc, _⟩ := advanceEpochs_resets _ _ _ _ _ hmem
  simp at hc

theorem emitCount_nil (K : Tuple) : emitCount [] K = 0 := rfl

theorem emitCount_matchEmit_singleton (jk vv ov K : Tuple) :
    emitCount [JEv.matchEmit jk vv ov] K = if make_hashable jk = K then 1 else 0 := by
  by_cases h : make_hashable jk = K <;> simp [emitCount, List.countP_cons, h]

theorem emitCount_joinSideReset (eidKey : String) (otherE curr : ℤ) (tup K : Tuple) :
    emitCount (joinSideReset eidKey otherE curr tup).2 K = 0 := by
  cases hep : lookupIntOpt eidKey tup with
  | none =>
    unfold joinSideReset
    rw [hep]
    rfl
  | some ep =>
    unfold joinSideReset
    rw [hep]
    exact emitCount_advanceEpochs _ _ _ _ _

theorem tblHasNat_of_some (tbl : List (Tuple × Tuple)) (K : Tuple) (v : Tuple)
    (h : assocGet tbl K = some v) : tblHasNat tbl K = 1 := by
  simp [tblHasNat, h]

theorem tblHasNat_assocSet_self (tbl : List (Tuple × Tuple)) (K : Tuple) (v : Tuple) :
    tblHasNat (assocSet tbl K v) K = 1 := by
  simp [tblHasNat, assocGet_assocSet_self]

theorem tblHasNat_assocSet_ne (tbl : List (Tuple × Tuple)) (K K' : Tuple) (v : Tuple)
    (h : K' ≠ K) : tblHasNat (assocSet tbl K v) K' = tblHasNat tbl K' := by
  simp [tblHasNat, assocGet_assocSet_ne _ _ _ _ h]

theorem tblHasNat_assocRemove_self (tbl : List (Tuple × Tuple)) (K : Tuple)
    (h : (tblKeys tbl).Nodup) : tblHasNat (assocRemove tbl K) K = 0 := by
  simp [tblHasNat, assocGet_assocRemove_self _ _ h]

theorem tblHasNat_assocRemove_ne (tbl : List (Tuple × Tuple)) (K K' : Tuple)
    (h : K' ≠ K) : tblHasNat (assocRemove tbl K) K' = tblHasNat tbl K' := by
  simp [tblHasNat, assocGet_assocRemove_ne _ _ _ h]

theorem acceptCount_cons (cfg : JoinCfg) (sd : Side) (i : JIn) (rest : List JIn)
    (K : Tuple) :
    acceptCount cfg sd (i :: rest) K = acceptCount cfg sd [i] K + acceptCount cfg sd rest K := by
  simp [acceptCount, List.countP_cons]
  omega

theorem acceptCount_next_self (cfg : JoinCfg) (sd : Side) (t : Tuple) (K : Tuple) :
    acceptCount cfg sd [JIn.next sd t] K =
      if inputFullKey cfg (JIn.next sd t) = some K then 1 else 0 := by
  by_cases h : inputFullKey cfg (JIn.next sd t) = some K <;>
    simp [acceptCount, List.countP_cons, h]

theorem acceptCount_next_other (cfg : JoinCfg) (sd sd' : Side) (t : Tuple) (K : Tuple)
    (h : sd' ≠ sd) : acceptCount cfg sd [JIn.next sd' t] K = 0 := by
  simp [acceptCount, List.countP_cons, h]

theorem acceptCount_reset (cfg : JoinCfg) (sd sd' : Side) (t : Tuple) (K : Tuple) :
    acceptCount cfg sd [JIn.reset sd' t] K = 0 := by
  simp [acceptCount, List.countP_cons]

theorem joinStep_nodup (cfg : JoinCfg) (s : JoinState) (i : JIn)
    (hL : (tblKeys s.tblL).Nodup) (hR : (tblKeys s.tblR).Nodup) :
    (tblKeys (joinStep cfg s i).1.tblL).Nodup ∧ (tblKeys (joinStep cfg s i).1.tblR).Nodup := by
  cases i with
  | next sd t =>
    cases sd with
    | L =>
      rw [joinStep_next_L]
      cases hep : lookupIntOpt cfg.eidKey t with
      | none =>
        rw [joinSideNext_lookup_none _ _ _ _ _ _ _ hep]
        exact ⟨hL, hR⟩
      | some ep =>
        cases hget : assocGet s.tblR
            (make_hashable (dictSet (cfg.extrL t).1 cfg.eidKey (OpResult.Int ep))) with
        | none =>
          rw [joinSideNext_store _ _ _ _ _ _ _ _ hep hget]
          exact ⟨tblKeys_nodup_assocSet _ _ _ hL, hR⟩
        | some ov =>
          rw [joinSideNext_match _ _ _ _ _ _ _ _ _ hep hget]
          exact ⟨hL, tblKeys_nodup_assocRemove _ _ hR⟩
    | R =>
      rw [joinStep_next_R]
      cases hep : lookupIntOpt cfg.eidKey t with
      | none =>
        rw [joinSideNext_lookup_none _ _ _ _ _ _ _ hep]
        exact ⟨hL, hR⟩
      | some ep =>
        cases hget : assocGet s.tblL
            (make_hashable (dictSet (cfg.extrR t).1 cfg.eidKey (OpResult.Int ep))) with
        | none =>
          rw [joinSideNext_store _ _ _ _ _ _ _ _ hep hget]
          exact ⟨hL, tblKeys_nodup_assocSet _ _ _ hR⟩
        | some ov =>
          rw [joinSideNext_match _ _ _ _ _ _ _ _ _ hep hget]
          exact ⟨tblKeys_nodup_assocRemove _ _ hL, hR⟩
  | reset sd t =>
    cases sd with
    | L =>
      rw [joinStep_reset_L]
      exact ⟨hL, hR⟩
    | R =>
      rw [joinStep_reset_R]
      exact ⟨hL, hR⟩

theorem joinStep_bound_L (cfg : JoinCfg) (s : JoinState) (i : JIn) (K : Tuple)
    (hL : (tblKeys s.tblL).Nodup) :
    emitCount (joinStep cfg s i).2 K + tblHasNat (joinStep cfg s i).1.tblL K ≤
      acceptCount cfg Side.L [i] K + tblHasNat s.tblL K := by
  cases i with
  | next sd t =>
    cases sd with
    | L =>
      rw [acceptCount_next_self, joinStep_next_L]
      cases hep : lookupIntOpt cfg.eidKey t with
      | none =>
        rw [joinSideNext_lookup_none _ _ _ _ _ _ _ hep]
        have hfk : inputFullKey cfg (JIn.next Side.L t) = none := by
          simp [inputFullKey, JoinCfg.extr, hep]
        rw [hfk]
        simp [emitCount_nil]
      | some ep =>
        have hfk : inputFullKey cfg (JIn.next Side.L t) =
            some (make_hashable (dictSet (cfg.extrL t).1 cfg.eidKey (OpResult.Int ep))) := by
          simp [inputFullKey, JoinCfg.extr, hep]
        rw [hfk]
        cases hget : assocGet s.tblR
            (make_hashable (dictSet (cfg.extrL t).1 cfg.eidKey (OpResult.Int ep))) with
        | none =>
          rw [joinSideNext_store _ _ _ _ _ _ _ _ hep hget]
          rw [emitCount_advanceEpochs]
          by_cases hk : make_hashable (dictSet (cfg.extrL t).1 cfg.eidKey (OpResult.Int ep)) = K
          · subst hk
            rw [tblHasNat_assocSet_self]
            simp [tblHasNat]
          · rw [tblHasNat_assocSet_ne _ _ _ _ (fun hh => hk hh.symm)]
            rw [if_neg (by intro hh; exact hk (by injection hh))]
            try omega
        | some ov =>
          rw [joinSideNext_match _ _ _ _ _ _ _ _ _ hep hget]
          rw [emitCount_append, emitCount_advanceEpochs, emitCount_matchEmit_singleton]
          by_cases hk : make_hashable (dictSet (cfg.extrL t).1 cfg.eidKey (OpResult.Int ep)) = K
          · rw [if_pos hk, if_pos (by rw [hk])]
            try omega
          · rw [if_neg hk, if_neg (by intro hh; exact hk (by injection hh))]
            try omega
    | R =>
      rw [acceptCount_next_other cfg Side.L Side.R t K (by simp), joinStep_next_R]
      cases hep : lookupIntOpt cfg.eidKey t with
      | none =>
        rw [joinSideNext_lookup_none _ _ _ _ _ _ _ hep]
        simp [emitCount_nil]
      | some ep =>
        cases hget : assocGet s.tblL
            (make_hashable (dictSet (cfg.extrR t).1 cfg.eidKey (OpResult.Int ep))) with
        | none =>
          rw [joinSideNext_store _ _ _ _ _ _ _ _ hep hget]
          rw [emitCount_advanceEpochs]
          try omega
        | some ov =>
          rw [joinSideNext_match _ _ _ _ _ _ _ _ _ hep hget]
          rw [emitCount_append, emitCount_advanceEpochs, emitCount_matchEmit_singleton]
          by_cases hk : make_hashable (dictSet (cfg.extrR t).1 cfg.eidKey (OpResult.Int ep)) = K
          · subst hk
            rw [if_pos rfl, tblHasNat_assocRemove_self _ _ hL,
              tblHasNat_of_some _ _ _ hget]
            try omega
          · rw [if_neg hk, tblHasNat_assocRemove_ne _ _ _ (fun hh => hk hh.symm)]
            try omega
  | reset sd t =>
    cases sd with
    | L =>
      rw [acceptCount_reset, joinStep_reset_L]
      rw [emitCount_joinSideReset]
      try omega
    | R =>
      rw [acceptCount_reset, joinStep_reset_R]
      rw [emitCount_joinSideReset]
      try omega

theorem joinStep_bound_R (cfg : JoinCfg) (s : JoinState) (i : JIn) (K : Tuple)
    (hR : (tblKeys s.tblR).Nodup) :
    emitCount (joinStep cfg s i).2 K + tblHasNat (joinStep cfg s i).1.tblR K ≤
      acceptCount cfg Side.R [i] K + tblHasNat s.tblR K := by
  cases i with
  | next sd t =>
    cases sd with
    | R =>
      rw [acceptCount_next_self, joinStep_next_R]
      cases hep : lookupIntOpt cfg.eidKey t with
      | none =>
        rw [joinSideNext_lookup_none _ _ _ _ _ _ _ hep]
        have hfk : inputFullKey cfg (JIn.next Side.R t) = none := by
          simp [inputFullKey, JoinCfg.extr, hep]
        rw [hfk]
        simp [emitCount_nil]
      | some ep =>
        have hfk : inputFullKey cfg (JIn.next Side.R t) =
            some (make_hashable (dictSet (cfg.extrR t).1 cfg.eidKey (OpResult.Int ep))) := by
          simp [inputFullKey, JoinCfg.extr, hep]
        rw [hfk]
        cases hget : assocGet s.tblL
            (make_hashable (dictSet (cfg.extrR t).1 cfg.eidKey (OpResult.Int ep))) with
        | none =>
          rw [joinSideNext_store _ _ _ _ _ _ _ _ hep hget]
          rw [emitCount_advanceEpochs]
          by_cases hk : make_hashable (dictSet (cfg.extrR t).1 cfg.eidKey (OpResult.Int ep)) = K
          · subst hk
            rw [tblHasNat_assocSet_self]
            simp [tblHasNat]
          · rw [tblHasNat_assocSet_ne _ _ _ _ (fun hh => hk hh.symm)]
            rw [if_neg (by intro hh; exact hk (by injection hh))]
            try omega
        | some ov =>
          rw [joinSideNext_match _ _ _ _ _ _ _ _ _ hep hget]
          rw [emitCount_append, emitCount_advanceEpochs, emitCount_matchEmit_singleton]
          by_cases hk : make_hashable (dictSet (cfg.extrR t).1 cfg.eidKey (OpResult.Int ep)) = K
          · rw [if_pos hk, if_pos (by rw [hk])]
            try omega
          · rw [if_neg hk, if_neg (by intro hh; exact hk (by injection hh))]
            try omega
    | L =>
      rw [acceptCount_next_other cfg Side.R Side.L t K (by simp), joinStep_next_L]
      cases hep : lookupIntOpt cfg.eidKey t with
      | none =>
        rw [joinSideNext_lookup_none _ _ _ _ _ _ _ hep]
        simp [emitCount_nil]
      | some ep =>
        cases hget : assocGet s.tblR
            (make_hashable (dictSet (cfg.extrL t).1 cfg.eidKey (OpResult.Int ep))) with
        | none =>
          rw [joinSideNext_store _ _ _ _ _ _ _ _ hep hget]
          rw [emitCount_advanceEpochs]
          try omega
        | some ov =>
          rw [joinSideNext_match _ _ _ _ _ _ _ _ _ hep hget]
          rw [emitCount_append, emitCount_advanceEpochs, emitCount_matchEmit_singleton]
          by_cases hk : make_hashable (dictSet (cfg.extrL t).1 cfg.eidKey (OpResult.Int ep)) = K
          · subst hk
            rw [if_pos rfl, tblHasNat_assocRemove_self _ _ hR,
              tblHasNat_of_some _ _ _ hget]
            try omega
          · rw [if_neg hk, tblHasNat_assocRemove_ne _ _ _ (fun hh => hk hh.symm)]
            try omega
  | reset sd t =>
    cases sd with
    | L =>
      rw [acceptCount_reset, joinStep_reset_L]
      rw [emitCount_joinSideReset]
      try omega
    | R =>
      rw [acceptCount_reset, joinStep_reset_R]
      rw [emitCount_joinSideReset]
      try omega

theorem joinRun_bound_L (cfg : JoinCfg) :
    ∀ (inputs : List JIn) (s : JoinState) (K : Tuple),
      (tblKeys s.tblL).Nodup → (tblKeys s.tblR).Nodup →
      emitCount (runJoin cfg s inputs).2 K + tblHasNat (runJoin cfg s inputs).1.tblL K ≤
        acceptCount cfg Side.L inputs K + tblHasNat s.tblL K := by
  intro inputs
  induction inputs with
  | nil =>
    intro s K _ _
    rw [show runJoin cfg s [] = (s, []) from rfl]
    dsimp only
    rw [emitCount_nil, show acceptCount cfg Side.L [] K = 0 from rfl]
  | cons i rest ih =>
    intro s K hL hR
    obtain ⟨hL', hR'⟩ := joinStep_nodup cfg s i hL hR
    have hstep := joinStep_bound_L cfg s i K hL
    have hrest := ih (joinStep cfg s i).1 K hL' hR'
    rw [show runJoin cfg s (i :: rest) =
        ((runJoin cfg (joinStep cfg s i).1 rest).1,
         (joinStep cfg s i).2 ++ (runJoin cfg (joinStep cfg s i).1 rest).2) from rfl]
    dsimp only
    rw [emitCount_append, acceptCount_cons]
    omega

theorem joinRun_bound_R (cfg : JoinCfg) :
    ∀ (inputs : List JIn) (s : JoinState) (K : Tuple),
      (tblKeys s.tblL).Nodup → (tblKeys s.tblR).Nodup →
      emitCount (runJoin cfg s inputs).2 K + tblHasNat (runJoin cfg s inputs).1.tblR K ≤
        acceptCount cfg Side.R inputs K + tblHasNat s.tblR K := by
  intro inputs
  induction inputs with
  | nil =>
    intro s K _ _
    rw [show runJoin cfg s [] = (s, []) from rfl]
    dsimp only
    rw [emitCount_nil, show acceptCount cfg Side.R [] K = 0 from rfl]
  | cons i rest ih =>
    intro s K hL hR
    obtain ⟨hL', hR'⟩ := joinStep_nodup cfg s i hL hR
    have hstep := joinStep_bound_R cfg s i K hR
    have hrest := ih (joinStep cfg s i).1 K hL' hR'
    rw [show runJoin cfg s (i :: rest) =
        ((runJoin cfg (joinStep cfg s i).1 rest).1,
         (joinStep cfg s i).2 ++ (runJoin cfg (joinStep cfg s i).1 rest).2) from rfl]
    dsimp only
    rw [emitCount_append, acceptCount_cons]
    omega

/-- C2 counterexample: when each side accepts the same (key, epoch)
twice, the join emits the identical merged tuple twice for that
(key, epoch) pair — re-sent values are re-matched — refuting the
claim's "no merged tuple is emitted twice for the same (key, epoch)
pair". -/
theorem claim_C2_cex :
    (((runJoin
        ⟨"eid", fun _ => ([], [("s", OpResult.Int 3)]),
          fun _ => ([], [("a", OpResult.Int 1)])⟩
        initJoin
        [JIn.next Side.L [("eid", OpResult.Int 0)],
         JIn.next Side.R [("eid", OpResult.Int 0)],
         JIn.next Side.L [("eid", OpResult.Int 0)],
         JIn.next Side.R [("eid", OpResult.Int 0)]]).2.map downstreamOfJEv).count
      (Ev.next [("s", OpResult.Int 3), ("a", OpResult.Int 1), ("eid", OpResult.Int 0)])) = 2 ∧
    dictGet [("s", OpResult.Int 3), ("a", OpResult.Int 1), ("eid", OpResult.Int 0)] "eid" =
      some (OpResult.Int 0) := by
  exact ⟨by decide, by decide⟩

/-- C2 (amended): a successful match removes exactly one entry from the
opposite side's table (its length drops by one and the full key is gone)
and stores nothing; and, per full (key, epoch) canonical key `K`, the
number of merged tuples emitted over a whole run from the initial state
is at most the number of accepts on each side carrying `K` — so each
stored value participates in at most one merged tuple, and if each side
accepts a given (key, epoch) at most once, at most one merged tuple is
emitted for it.  (Re-sending the same (key, epoch) on both sides does
produce further merged tuples, as the counterexample shows.) -/
theorem claim_C2_amended (cfg : JoinCfg) (inputs : List JIn) (K : Tuple) :
    (emitCount (runJoin cfg initJoin inputs).2 K ≤ acceptCount cfg Side.L inputs K ∧
     emitCount (runJoin cfg initJoin inputs).2 K ≤ acceptCount cfg Side.R inputs K ∧
     (acceptCount cfg Side.L inputs K ≤ 1 →
       emitCount (runJoin cfg initJoin inputs).2 K ≤ 1)) ∧
    (∀ (eidKey : String) (extr : Tuple → Tuple × Tuple) (own other : List (Tuple × Tuple))
       (curr otherE : ℤ) (tup : Tuple) (ep : ℤ) (ov : Tuple),
      lookupIntOpt eidKey tup = some ep →
      (tblKeys other).Nodup →
      assocGet other (make_hashable (dictSet (extr tup).1 eidKey (OpResult.Int ep))) =
        some ov →
      ((joinSideNext eidKey extr own other curr otherE tup).2.1.length + 1 = other.length ∧
       assocGet (joinSideNext eidKey extr own other curr otherE tup).2.1
         (make_hashable (dictSet (extr tup).1 eidKey (OpResult.Int ep))) = none ∧
       (joinSideNext eidKey extr own other curr otherE tup).1 = own)) := by
  constructor
  · have hnodL : (tblKeys initJoin.tblL).Nodup := by simp [initJoin, tblKeys]
    have hnodR : (tblKeys initJoin.tblR).Nodup := by simp [initJoin, tblKeys]
    have hL := joinRun_bound_L cfg inputs initJoin K hnodL hnodR
    have hR := joinRun_bound_R cfg inputs initJoin K hnodL hnodR
    have hzL : tblHasNat initJoin.tblL K = 0 := rfl
    have hzR : tblHasNat initJoin.tblR K = 0 := rfl
    rw [hzL] at hL
    rw [hzR] at hR
    exact ⟨by omega, by omega, fun h1 => by omega⟩
  · intro eidKey extr own other curr otherE tup ep ov hep hn hget
    rw [joinSideNext_match _ _ _ _ _ _ _ _ _ hep hget]
    exact ⟨assocRemove_length _ _ _ hget, assocGet_assocRemove_self _ _ hn, rfl⟩

theorem claim_C2_amended_witness :
    emitCount (runJoin
      ⟨"eid", fun _ => ([], [("s", OpResult.Int 3)]),
        fun _ => ([], [("a", OpResult.Int 1)])⟩
      initJoin
      [JIn.next Side.L [("eid", OpResult.Int 0)],
       JIn.next Side.R [("eid", OpResult.Int 0)]]).2 [("eid", OpResult.Int 0)] ≤ 1 ∧
    assocGet (joinSideNext "eid" (fun _ => ([], [("a", OpResult.Int 1)])) []
        [([("eid", OpResult.Int 0)], [("s", OpResult.Int 3)])] 0 0
        [("eid", OpResult.Int 0)]).2.1
      (make_hashable (dictSet ([] : Tuple) "eid" (OpResult.Int 0))) = none := by
  constructor
  · exact (claim_C2_amended
      ⟨"eid", fun _ => ([], [("s", OpResult.Int 3)]),
        fun _ => ([], [("a", OpResult.Int 1)])⟩
      [JIn.next Side.L [("eid", OpResult.Int 0)],
       JIn.next Side.R [("eid", OpResult.Int 0)]]
      [("eid", OpResult.Int 0)]).1.2.2 (by decide)
  · exact ((claim_C2_amended
      ⟨"eid", fun _ => ([], [("s", OpResult.Int 3)]),
        fun _ => ([], [("a", OpResult.Int 1)])⟩ [] []).2
      "eid" (fun _ => ([], [("a", OpResult.Int 1)])) []
      [([("eid", OpResult.Int 0)], [("s", OpResult.Int 3)])] 0 0
      [("eid", OpResult.Int 0)] 0 [("s", OpResult.Int 3)]
      (by decide) (by decide) (by decide)).2.1

/-!  ### Claim C10: same-side overwrite discards the stored value -/

theorem joinStep_matchEmit_sound (cfg : JoinCfg) (s : JoinState) (i : JIn)
    (jk vv ov : Tuple) (hmem : JEv.matchEmit jk vv ov ∈ (joinStep cfg s i).2) :
    ∃ sd t ep, i = JIn.next sd t ∧ lookupIntOpt cfg.eidKey t = some ep ∧
      jk = dictSet (cfg.extr sd t).1 cfg.eidKey (OpResult.Int ep) ∧
      vv = (cfg.extr sd t).2 ∧
      assocGet (otherTbl s sd) (make_hashable jk) = some ov := by
  cases i with
  | reset sd t =>
    exfalso
    cases sd with
    | L =>
      rw [joinStep_reset_L] at hmem
      cases hep : lookupIntOpt cfg.eidKey t with
      | none =>
        unfold joinSideReset at hmem
        rw [hep] at hmem
        simp at hmem
      | some ep =>
        unfold joinSideReset at hmem
        rw [hep] at hmem
        exact advanceEpochs_no_match _ _ _ _ _ _ _ hmem
    | R =>
      rw [joinStep_reset_R] at hmem
      cases hep : lookupIntOpt cfg.eidKey t with
      | none =>
        unfold joinSideReset at hmem
        rw [hep] at hmem
        simp at hmem
      | some ep =>
        unfold joinSideReset at hmem
        rw [hep] at hmem
        exact advanceEpochs_no_match _ _ _ _ _ _ _ hmem
  | next sd t =>
    cases sd with
    | L =>
      rw [joinStep_next_L] at hmem
      cases hep : lookupIntOpt cfg.eidKey t with
      | none =>
        rw [joinSideNext_lookup_none _ _ _ _ _ _ _ hep] at hmem
        simp at hmem
      | some ep =>
        cases hget : assocGet s.tblR
            (make_hashable (dictSet (cfg.extrL t).1 cfg.eidKey (OpResult.Int ep))) with
        | none =>
          rw [joinSideNext_store _ _ _ _ _ _ _ _ hep hget] at hmem
          exact absurd hmem (advanceEpochs_no_match _ _ _ _ _ _ _)
        | some ov' =>
          rw [joinSideNext_match _ _ _ _ _ _ _ _ _ hep hget] at hmem
          rcases List.mem_append.mp hmem with h | h
          · exact absurd h (advanceEpochs_no_match _ _ _ _ _ _ _)
          · simp at h
            obtain ⟨h1, h2, h3⟩ := h
            subst h1
            subst h2
            subst h3
            exact ⟨Side.L, t, ep, rfl, hep, rfl, rfl, by
              show assocGet s.tblR _ = _
              rw [hget]⟩
    | R =>
      rw [joinStep_next_R] at hmem
      cases hep : lookupIntOpt cfg.eidKey t with
      | none =>
        rw [joinSideNext_lookup_none _ _ _ _ _ _ _ hep] at hmem
        simp at hmem
      | some ep =>
        cases hget : assocGet s.tblL
            (make_hashable (dictSet (cfg.extrR t).1 cfg.eidKey (OpResult.Int ep))) with
        | none =>
          rw [joinSideNext_store _ _ _ _ _ _ _ _ hep hget] at hmem
          exact absurd hmem (advanceEpochs_no_match _ _ _ _ _ _ _)
        | some ov' =>
          rw [joinSideNext_match _ _ _ _ _ _ _ _ _ hep hget] at hmem
          rcases List.mem_append.mp hmem with h | h
          · exact absurd h (advanceEpochs_no_match _ _ _ _ _ _ _)
          · simp at h
            obtain ⟨h1, h2, h3⟩ := h
            subst h1
            subst h2
            subst h3
            exact ⟨Side.R, t, ep, rfl, hep, rfl, rfl, by
              show assocGet s.tblL _ = _
              rw [hget]⟩

theorem joinStep_value_absent (cfg : JoinCfg) (s : JoinState) (i : JIn) (v : Tuple)
    (habs : ¬ valInTables s v)
    (hext : ∀ sd t, i = JIn.next sd t → (cfg.extr sd t).2 ≠ v) :
    ¬ valInTables (joinStep cfg s i).1 v := by
  cases i with
  | reset sd t =>
    cases sd with
    | L =>
      rw [joinStep_reset_L]
      exact habs
    | R =>
      rw [joinStep_reset_R]
      exact habs
  | next sd t =>
    have hv := hext sd t rfl
    cases sd with
    | L =>
      rw [joinStep_next_L]
      cases hep : lookupIntOpt cfg.eidKey t with
      | none =>
        rw [joinSideNext_lookup_none _ _ _ _ _ _ _ hep]
        exact habs
      | some ep =>
        cases hget : assocGet s.tblR
            (make_hashable (dictSet (cfg.extrL t).1 cfg.eidKey (OpResult.Int ep))) with
        | none =>
          rw [joinSideNext_store _ _ _ _ _ _ _ _ hep hget]
          intro hcontra
          rcases hcontra with ⟨p, hp, hpv⟩ | hr
          · rcases mem_assocSet _ _ _ p hp with h' | h'
            · rw [h'] at hpv
              exact hv (by simpa [JoinCfg.extr] using hpv)
            · exact habs (Or.inl ⟨p, h', hpv⟩)
          · exact habs (Or.inr hr)
        | some ov =>
          rw [joinSideNext_match _ _ _ _ _ _ _ _ _ hep hget]
          intro hcontra
          rcases hcontra with hl | ⟨p, hp, hpv⟩
          · exact habs (Or.inl hl)
          · exact habs (Or.inr ⟨p, mem_assocRemove _ _ p hp, hpv⟩)
    | R =>
      rw [joinStep_next_R]
      cases hep : lookupIntOpt cfg.eidKey t with
      | none =>
        rw [joinSideNext_lookup_none _ _ _ _ _ _ _ hep]
        exact habs
      | some ep =>
        cases hget : assocGet s.tblL
            (make_hashable (dictSet (cfg.extrR t).1 cfg.eidKey (OpResult.Int ep))) with
        | none =>
          rw [joinSideNext_store _ _ _ _ _ _ _ _ hep hget]
          intro hcontra
          rcases hcontra with hl | ⟨p, hp, hpv⟩
          · exact habs (Or.inl hl)
          · rcases mem_assocSet _ _ _ p hp with h' | h'
            · rw [h'] at hpv
              exact hv (by simpa [JoinCfg.extr] using hpv)
            · exact habs (Or.inr ⟨p, h', hpv⟩)
        | some ov =>
          rw [joinSideNext_match _ _ _ _ _ _ _ _ _ hep hget]
          intro hcontra
          rcases hcontra with ⟨p, hp, hpv⟩ | hr
          · exact habs (Or.inl ⟨p, mem_assocRemove _ _ p hp, hpv⟩)
          · exact habs (Or.inr hr)

theorem joinRun_value_absent (cfg : JoinCfg) :
    ∀ (inputs : List JIn) (s : JoinState) (v : Tuple),
      ¬ valInTables s v →
      (∀ i ∈ inputs, ∀ sd t, i = JIn.next sd t → (cfg.extr sd t).2 ≠ v) →
      ∀ jk vv ov, JEv.matchEmit jk vv ov ∈ (runJoin cfg s inputs).2 →
        vv ≠ v ∧ ov ≠ v := by
  intro inputs
  induction inputs with
  | nil =>
    intro s v _ _ jk vv ov hmem
    simp [runJoin] at hmem
  | cons i rest ih =>
    intro s v habs hext jk vv ov hmem
    rw [show runJoin cfg s (i :: rest) =
        ((runJoin cfg (joinStep cfg s i).1 rest).1,
         (joinStep cfg s i).2 ++ (runJoin cfg (joinStep cfg s i).1 rest).2) from rfl] at hmem
    rcases List.mem_append.mp hmem with hstep | hrest
    · obtain ⟨sd, t, ep, hi, hep', hjk, hvv, hov⟩ :=
        joinStep_matchEmit_sound cfg s i jk vv ov hstep
      constructor
      · rw [hvv]
        exact hext i (by simp) sd t hi
      · intro hove
        apply habs
        have hmem' : (make_hashable jk, ov) ∈ otherTbl s sd := assocGet_mem _ _ _ hov
        cases sd with
        | L => exact Or.inr ⟨(make_hashable jk, ov), hmem', hove⟩
        | R => exact Or.inl ⟨(make_hashable jk, ov), hmem', hove⟩
    · exact ih (joinStep cfg s i).1 v
        (joinStep_value_absent cfg s i v habs (fun sd t hi => hext i (by simp) sd t hi))
        (fun i' hi' sd t hi => hext i' (by simp [hi']) sd t hi)
        jk vv ov hrest

/-- C10: when a join side accepts a tuple whose full key (extracted key
plus epoch) is already present in that side's own pending table and no
match is available from the other side, the newly extracted value tuple
overwrites the stored one: the step emits no merged tuple, the table
afterwards maps the full key to the new value, and — provided the old
value is not stored anywhere else and is never extracted again — the old
value appears as neither component of any later matched emission, hence
in no emitted merged tuple. -/
theorem claim_C10 (cfg : JoinCfg) (s : JoinState) (sd : Side) (t : Tuple) (ep : ℤ)
    (K v1 : Tuple) (post : List JIn)
    (hep : lookupIntOpt cfg.eidKey t = some ep)
    (hK : K = make_hashable (dictSet (cfg.extr sd t).1 cfg.eidKey (OpResult.Int ep)))
    (hown : assocGet (ownTbl s sd) K = some v1)
    (hother : assocGet (otherTbl s sd) K = none)
    (hnodup : (tblKeys (ownTbl s sd)).Nodup)
    (honly : ∀ p ∈ ownTbl s sd, p.2 = v1 → p.1 = K)
    (hnotOther : ∀ p ∈ otherTbl s sd, p.2 ≠ v1)
    (hgone : (cfg.extr sd t).2 ≠ v1)
    (hpost : ∀ i ∈ post, ∀ sd' t', i = JIn.next sd' t' → (cfg.extr sd' t').2 ≠ v1) :
    assocGet (ownTbl (joinStep cfg s (JIn.next sd t)).1 sd) K =
      some ((cfg.extr sd t).2) ∧
    (∀ jk vv ov, JEv.matchEmit jk vv ov ∉ (joinStep cfg s (JIn.next sd t)).2) ∧
    (∀ jk vv ov, JEv.matchEmit jk vv ov ∈
        (runJoin cfg (joinStep cfg s (JIn.next sd t)).1 post).2 →
      vv ≠ v1 ∧ ov ≠ v1) := by
  have habs' : ¬ valInTables (joinStep cfg s (JIn.next sd t)).1 v1 := by
    cases sd with
    | L =>
      rw [joinStep_next_L]
      rw [joinSideNext_store _ _ _ _ _ _ _ _ hep
        (by rw [show make_hashable (dictSet (cfg.extrL t).1 cfg.eidKey (OpResult.Int ep)) = K
              from by rw [hK]; rfl]
            exact hother)]
      intro hcontra
      rcases hcontra with ⟨p, hp, hpv⟩ | ⟨p, hp, hpv⟩
      · rcases mem_assocSet_nodup _ _ _ p hnodup hp with h' | ⟨hpmem, hpk⟩
        · rw [h'] at hpv
          exact hgone (by simpa [JoinCfg.extr] using hpv)
        · have := honly p hpmem hpv
          rw [show make_hashable (dictSet (cfg.extrL t).1 cfg.eidKey (OpResult.Int ep)) = K
              from by rw [hK]; rfl] at hpk
          exact hpk this
      · exact hnotOther p hp hpv
    | R =>
      rw [joinStep_next_R]
      rw [joinSideNext_store _ _ _ _ _ _ _ _ hep
        (by rw [show make_hashable (dictSet (cfg.extrR t).1 cfg.eidKey (OpResult.Int ep)) = K
              from by rw [hK]; rfl]
            exact hother)]
      intro hcontra
      rcases hcontra with ⟨p, hp, hpv⟩ | ⟨p, hp, hpv⟩
      · exact hnotOther p hp hpv
      · rcases mem_assocSet_nodup _ _ _ p hnodup hp with h' | ⟨hpmem, hpk⟩
        · rw [h'] at hpv
          exact hgone (by simpa [JoinCfg.extr] using hpv)
        · have := honly p hpmem hpv
          rw [show make_hashable (dictSet (cfg.extrR t).1 cfg.eidKey (OpResult.Int ep)) = K
              from by rw [hK]; rfl] at hpk
          exact hpk this
  refine ⟨?_, ?_, ?_⟩
  · cases sd with
    | L =>
      rw [joinStep_next_L]
      rw [joinSideNext_store _ _ _ _ _ _ _ _ hep
        (by rw [show make_hashable (dictSet (cfg.extrL t).1 cfg.eidKey (OpResult.Int ep)) = K
              from by rw [hK]; rfl]
            exact hother)]
      show assocGet (assocSet s.tblL _ _) K = _
      rw [hK]
      exact assocGet_assocSet_self _ _ _
    | R =>
      rw [joinStep_next_R]
      rw [joinSideNext_store _ _ _ _ _ _ _ _ hep
        (by rw [show make_hashable (dictSet (cfg.extrR t).1 cfg.eidKey (OpResult.Int ep)) = K
              from by rw [hK]; rfl]
            exact hother)]
      show assocGet (assocSet s.tblR _ _) K = _
      rw [hK]
      exact assocGet_assocSet_self _ _ _
  · intro jk vv ov hmem
    cases sd with
    | L =>
      rw [joinStep_next_L] at hmem
      rw [joinSideNext_store _ _ _ _ _ _ _ _ hep
        (by rw [show make_hashable (dictSet (cfg.extrL t).1 cfg.eidKey (OpResult.Int ep)) = K
              from by rw [hK]; rfl]
            exact hother)] at hmem
      exact advanceEpochs_no_match _ _ _ _ _ _ _ hmem
    | R =>
      rw [joinStep_next_R] at hmem
      rw [joinSideNext_store _ _ _ _ _ _ _ _ hep
        (by rw [show make_hashable (dictSet (cfg.extrR t).1 cfg.eidKey (OpResult.Int ep)) = K
              from by rw [hK]; rfl]
            exact hother)] at hmem
      exact advanceEpochs_no_match _ _ _ _ _ _ _ hmem
  · exact fun jk vv ov hmem =>
      joinRun_value_absent cfg post (joinStep cfg s (JIn.next sd t)).1 v1 habs' hpost
        jk vv ov hmem

theorem claim_C10_witness :
    assocGet (ownTbl (joinStep
        ⟨"eid", fun t => ([], t.filter (fun p => p.1 == "v")),
          fun t => ([], t.filter (fun p => p.1 == "v"))⟩
        ⟨[([("eid", OpResult.Int 0)], [("v", OpResult.Int 1)])], [], 0, 0⟩
        (JIn.next Side.L [("eid", OpResult.Int 0), ("v", OpResult.Int 2)])).1 Side.L)
      [("eid", OpResult.Int 0)] = some [("v", OpResult.Int 2)] ∧
    ([("v", OpResult.Int 9)] : Tuple) ≠ [("v", OpResult.Int 1)] ∧
    ([("v", OpResult.Int 2)] : Tuple) ≠ [("v", OpResult.Int 1)] := by
  have h := claim_C10
    ⟨"eid", fun t => ([], t.filter (fun p => p.1 == "v")),
      fun t => ([], t.filter (fun p => p.1 == "v"))⟩
    ⟨[([("eid", OpResult.Int 0)], [("v", OpResult.Int 1)])], [], 0, 0⟩
    Side.L [("eid", OpResult.Int 0), ("v", OpResult.Int 2)] 0
    [("eid", OpResult.Int 0)] [("v", OpResult.Int 1)]
    [JIn.next Side.R [("eid", OpResult.Int 0), ("v", OpResult.Int 9)]]
    (by decide) (by decide) (by decide) (by decide) (by decide) (by decide) (by decide)
    (by decide)
    (by
      intro i hi sd' t' hieq
      rw [List.mem_singleton] at hi
      subst hi
      injection hieq with h1 h2
      subst h1
      subst h2
      decide)
  refine ⟨h.1, ?_⟩
  have h3 := h.2.2 [("eid", OpResult.Int 0)] [("v", OpResult.Int 9)] [("v", OpResult.Int 2)]
    (by decide)
  exact ⟨h3.1, h3.2⟩

end StreamEngine
